import Mathlib

/-!
Verification of the NL-to-SQL generation-and-validation pipeline
(`backend/src/services/llm_service.py`).

Strings are modelled as `List Char` (Python `str` indices are code points, so
list positions match Python slice indices).  Case mapping and the whitespace
set are modelled over ASCII, which covers every character the validator's own
constants use.  The `while "<thinking>" in sql_query` loop of
`_validate_and_clean_sql` is not structurally terminating (and indeed does not
terminate on some inputs), so it is embedded with an explicit iteration budget
(`fuel`); `none` means the loop is still running after `fuel` iterations.
All other functions are total, and every definition is executable.
-/

deriving instance DecidableEq for Except

namespace NLToSQL

/-- Characters of a Lean string literal, used to write the Python string
constants. -/
def str (s : String) : List Char := s.data

/-- ASCII whitespace, the characters Python's `str.strip` / `str.split`
treat as whitespace (space, tab, newline, carriage return, vertical tab,
form feed). -/
def isWs (c : Char) : Bool :=
  c = ' ' || c = '\t' || c = '\n' || c = '\r' || c = Char.ofNat 11 || c = Char.ofNat 12

/-- The lower/upper pairs of the ASCII letters. -/
def caseTable : List (Char × Char) :=
  [('a','A'), ('b','B'), ('c','C'), ('d','D'), ('e','E'), ('f','F'),
   ('g','G'), ('h','H'), ('i','I'), ('j','J'), ('k','K'), ('l','L'),
   ('m','M'), ('n','N'), ('o','O'), ('p','P'), ('q','Q'), ('r','R'),
   ('s','S'), ('t','T'), ('u','U'), ('v','V'), ('w','W'), ('x','X'),
   ('y','Y'), ('z','Z')]

/-- ASCII upper-casing of one character, as Python `str.upper` acts on the
ASCII range. -/
def upChar (c : Char) : Char :=
  ((caseTable.find? (fun p => p.1 == c)).map Prod.snd).getD c

/-- ASCII lower-casing of one character, as Python `str.lower` acts on the
ASCII range. -/
def loChar (c : Char) : Char :=
  ((caseTable.find? (fun p => p.2 == c)).map Prod.fst).getD c

/-- Python `s.upper()`. -/
def upperL (s : List Char) : List Char := s.map upChar

/-- Python `s.lower()`. -/
def lowerL (s : List Char) : List Char := s.map loChar

/-- Python `s.startswith(p)`. -/
def startsWithL : List Char → List Char → Bool
  | [], _ => true
  | _ :: _, [] => false
  | c :: p, d :: s => c = d && startsWithL p s

/-- Python `s.endswith(p)`. -/
def endsWithL (p s : List Char) : Bool := startsWithL p.reverse s.reverse

/-- Python `p in s` (substring containment). -/
def containsSub (p : List Char) : List Char → Bool
  | [] => startsWithL p []
  | s@(_ :: rest) => startsWithL p s || containsSub p rest

/-- Python `s.find(p)`: index of the first occurrence, `none` for `-1`. -/
def firstOcc (p : List Char) : List Char → Option Nat
  | [] => if startsWithL p [] then some 0 else none
  | s@(_ :: rest) =>
    if startsWithL p s then some 0 else (firstOcc p rest).map (· + 1)

/-- Python `s.strip()` (over the ASCII whitespace set). -/
def pstrip (s : List Char) : List Char :=
  ((s.dropWhile isWs).reverse.dropWhile isWs).reverse

/-- One-pass core of `" ".join(s.split())`: `pending` records whether a
whitespace run has been seen since the last emitted character. -/
def wsnGo : Bool → List Char → List Char
  | _, [] => []
  | pending, c :: rest =>
    if isWs c then wsnGo true rest
    else (if pending then [' ', c] else [c]) ++ wsnGo false rest

/-- Python `" ".join(s.split())`: collapse whitespace runs to single spaces
and drop leading/trailing whitespace. -/
def wsNormalize (s : List Char) : List Char := wsnGo false (s.dropWhile isWs)

/-- One-pass core of Python `re.sub(r"<[^>]+>", "", s)`.  The state holds the
characters (reversed) read since an as-yet-unmatched `<`; a later `>` closes
the leftmost pending `<` exactly as the regex engine's leftmost-match rule
does, and `<>` (empty gap) matches nothing. -/
def stGo : List Char → Option (List Char) → List Char
  | [], none => []
  | [], some buf => '<' :: buf.reverse
  | c :: rest, none =>
    if c = '<' then stGo rest (some []) else c :: stGo rest none
  | c :: rest, some buf =>
    if c = '>' then
      (if buf = [] then '<' :: '>' :: stGo rest none else stGo rest none)
    else stGo rest (some (c :: buf))

/-- Python `re.sub(r"<[^>]+>", "", s)` (line 389 of the service). -/
def stripTags (s : List Char) : List Char := stGo s none

/-- The `INVALID_REQUEST` sentinel. -/
def sINVALID : List Char := str "INVALID_REQUEST"

/-- The `OUT_OF_SCOPE` sentinel. -/
def sOUTSCOPE : List Char := str "OUT_OF_SCOPE"

/-- The `<thinking>` opener searched for by the removal loop. -/
def thinkOpen : List Char := str "<thinking>"

/-- The `</thinking>` closer searched for by the removal loop. -/
def thinkClose : List Char := str "</thinking>"

/-- The `while "<thinking>" in sql_query` loop (lines 379-386), with an
explicit iteration budget.  Each loop iteration recomputes
`find("<thinking>")` and `find("</thinking>")` over the whole string and, when
the closer is found, replaces the string by
`s[:start_thinking] + s[end_thinking + 12:]` (the literal `12` of the source);
when the closer is missing it truncates at the opener and breaks.  `none`
means the budget was exhausted with the opener still present. -/
def removeThinking : Nat → List Char → Option (List Char)
  | fuel, s =>
    match firstOcc thinkOpen s with
    | none => some s
    | some st =>
      match firstOcc thinkClose s with
      | none => some (s.take st)
      | some en =>
        match fuel with
        | 0 => none
        | f + 1 => removeThinking f (s.take st ++ s.drop (en + 12))

/-- Code-fence stripping (lines 371-376). -/
def deFence (s : List Char) : List Char :=
  let s1 := if startsWithL (str "```sql") s then s.drop 6 else s
  let s2 := if startsWithL (str "```") s1 then s1.drop 3 else s1
  if endsWithL (str "```") s2 then s2.take (s2.length - 3) else s2

/-- The `prefixes_to_remove` list (lines 392-401). -/
def leadIns : List (List Char) :=
  [str "Query:", str "SQL:", str "Answer:", str "Result:",
   str "The query is:", str "The SQL query is:",
   str "Here's the query:", str "Here is the query:"]

/-- The boilerplate lead-in removal loop (lines 403-405): for each known
lead-in in order, if the current text starts with it case-insensitively,
drop it and strip. -/
def stripLeadIns (s : List Char) : List Char :=
  leadIns.foldl
    (fun cur p =>
      if startsWithL (lowerL p) (lowerL cur) then pstrip (cur.drop p.length)
      else cur)
    s

/-- Splitting on `;` as Python `s.split(";")` does: `n` separators give
`n + 1` (possibly empty) parts. -/
def splitSemi : List Char → List (List Char)
  | [] => [[]]
  | c :: rest =>
    if c = ';' then [] :: splitSemi rest
    else
      match splitSemi rest with
      | [] => [[c]]
      | p :: ps => (c :: p) :: ps

/-- Multiple-statement handling (lines 414-421): when a `;` is present, keep
the first fragment that is non-empty after stripping and re-terminate it. -/
def semiSplit (s : List Char) : List Char :=
  if containsSub (str ";") s then
    match ((splitSemi s).map pstrip).filter (fun x => x ≠ []) with
    | [] => s
    | st :: _ => if endsWithL (str ";") st then st else st ++ str ";"
  else s

/-- Python's regex word character over ASCII (`[A-Za-z0-9_]`), the class
defining the `\b` boundaries used by the keyword scan. -/
def wordChar (c : Char) : Bool :=
  ('A' ≤ c && c ≤ 'Z') || ('a' ≤ c && c ≤ 'z') || ('0' ≤ c && c ≤ '9') || c = '_'

/-- Whether a match of `kw` starting here respects the trailing `\b`. -/
def afterOk (kl : Nat) (s : List Char) : Bool :=
  match s.drop kl with
  | [] => true
  | c :: _ => !wordChar c

/-- Whether the character before a candidate match respects the leading
`\b` (`none` for the start of the string). -/
def beforeOk : Option Char → Bool
  | none => true
  | some c => !wordChar c

/-- Scan for `re.search(r"\b" + kw + r"\b", s)`: a word-bounded occurrence of
`kw` at any position. -/
def wbScan (kw : List Char) : Option Char → List Char → Bool
  | prev, s =>
    (startsWithL kw s && beforeOk prev && afterOk kw.length s) ||
      (match s with
       | [] => false
       | c :: rest => wbScan kw (some c) rest)

/-- Python `re.search(r"\b" + re.escape(keyword) + r"\b", sql_upper)` is not
`None`. -/
def wordBounded (kw s : List Char) : Bool := wbScan kw none s

/-- The thirteen `dangerous_keywords` (lines 427-441), in source order. -/
def dangerousKeywords : List (List Char) :=
  [str "DROP", str "DELETE", str "UPDATE", str "INSERT", str "ALTER",
   str "CREATE", str "TRUNCATE", str "EXEC", str "EXECUTE", str "ATTACH",
   str "DETACH", str "PRAGMA", str "VACUUM"]

/-- The first dangerous keyword with a word-bounded match in the upper-cased
query, as the scan loop of lines 446-452 reports it. -/
def dangerousHit (sqlUpper : List Char) : Option (List Char) :=
  dangerousKeywords.find? (fun kw => wordBounded kw sqlUpper)

/-- The `injection_patterns` (lines 459-463). -/
def injectionPats : List (List Char) := [str "xp_", str "sp_", str "@@"]

/-- The first injection pattern contained in the lower-cased query
(lines 465-467). -/
def injectionHit (sqlLower : List Char) : Option (List Char) :=
  injectionPats.find? (fun p => containsSub (lowerL p) sqlLower)

/-- The typed failures `_validate_and_clean_sql` can raise, one per
`raise ValueError` site. -/
inductive SqlError where
  | invalidRequest : SqlError
  | outOfScope : SqlError
  | dangerousOp : List Char → SqlError
  | onlySelect : SqlError
  | unsafePattern : List Char → SqlError
  | missingTable : List Char → SqlError
  | unbalancedParens : SqlError
deriving DecidableEq

/-- Appending the terminating `;` when absent (lines 477-478). -/
def terminate (s : List Char) : List Char :=
  if endsWithL (str ";") s then s else s ++ str ";"

/-- The tail of `_validate_and_clean_sql` after whitespace normalization
(lines 426-484): keyword scan, SELECT entry check, injection patterns, table
reference, `;` termination, parenthesis balance. -/
def finalChecks (tbl s : List Char) : Except SqlError (List Char) :=
  match dangerousHit (upperL s) with
  | some kw => .error (.dangerousOp kw)
  | none =>
    if startsWithL (str "SELECT") (upperL s) then
      match injectionHit (lowerL s) with
      | some pat => .error (.unsafePattern pat)
      | none =>
        if containsSub (lowerL tbl) (lowerL s) then
          if (terminate s).count '(' = (terminate s).count ')' then
            .ok (terminate s)
          else .error .unbalancedParens
        else .error (.missingTable tbl)
    else .error .onlySelect

/-- `_validate_and_clean_sql(sql_query, table_name)` (lines 352-484).
`fuel` bounds the `<thinking>`-removal loop; `none` means that loop is still
running. -/
def validate_and_clean_sql (fuel : Nat) (raw tbl : List Char) :
    Option (Except SqlError (List Char)) :=
  let s0 := pstrip raw
  if s0 = sINVALID then some (.error .invalidRequest)
  else if s0 = sOUTSCOPE then some (.error .outOfScope)
  else
    match removeThinking fuel (deFence s0) with
    | none => none
    | some s2 =>
      let s6 := pstrip (stripLeadIns (stripTags s2))
      let s7 := if startsWithL (str "SELECT") (upperL s6) then s6
                else str "SELECT " ++ s6
      some (finalChecks tbl (wsNormalize (semiSplit s7)))

/-- The statement body with a single trailing `;` removed (used to state what
the validator preserves). -/
def dropSemiEnd (s : List Char) : List Char :=
  if endsWithL (str ";") s then s.take (s.length - 1) else s

/-! ### Proof-side predicates (not part of the translated code) -/

/-- Scanner for whitespace-normal strings: every whitespace character is a
single space, not at the start (when the flag is set), not after another
space, and not at the end.  `nrm true s` says `s` is a fixed point of
`wsNormalize`. -/
def nrm : Bool → List Char → Bool
  | _, [] => true
  | b, c :: rest =>
    if isWs c then decide (c = ' ') && !b && !rest.isEmpty && nrm true rest
    else nrm false rest

/-- What must hold of the text after a `<` so that no `<[^>]+>` tag pattern
starts at that `<`: nothing follows, or `>` follows immediately (empty gap),
or no `>` ever follows. -/
def CondD (b : List Char) : Prop :=
  b = [] ∨ (∃ b2, b = '>' :: b2) ∨ '>' ∉ b

/-- No `<[^>]+>` tag pattern occurs anywhere in `x`: every occurrence of `<`
satisfies `CondD` on its tail.  Strings with this property are fixed points
of `stripTags` and contain no `<thinking>` opener. -/
def NoTagD (x : List Char) : Prop :=
  ∀ a b, x = a ++ '<' :: b → CondD b

/-- Everything the validator guarantees about a successfully returned query
string, bundled: the shape invariant (a non-empty, `;`-free,
whitespace-normal body with non-whitespace last character, followed by the
single terminating `;`), the `SELECT` entry point, freedom from tag
patterns, and the four scans it passed. -/
structure GoodOut (tbl q : List Char) : Prop where
  shape : ∃ w0 d, q = w0 ++ [d] ++ [';'] ∧ isWs d = false ∧ d ≠ ';' ∧
    ';' ∉ w0 ∧ nrm true (w0 ++ [d]) = true
  sel : startsWithL (str "SELECT") (upperL q) = true
  notag : NoTagD q
  kwOk : dangerousHit (upperL q) = none
  injOk : injectionHit (lowerL q) = none
  tblOk : containsSub (lowerL tbl) (lowerL q) = true
  paren : q.count '(' = q.count ')'

/-! ## Concrete behavior of the validator -/

/-- The closer-before-opener input on which the `<thinking>` removal loop of
lines 379-386 never terminates: the opener starts 12 characters after the
closer, so `s[:start_thinking] + s[end_thinking + 12:]` rebuilds the string
unchanged. -/
def loopInput : List Char := str "</thinking>x<thinking>y"

/-! ### The model call pipeline: `generate_sql`, `_create_prompt`,
`_build_rag_context` (`llm_service.py` 15-321).

The dict-typed `table_context` is embedded as a record whose columns are
name/type pairs and whose sample rows are lists of string values (the typed
shape produced by the file-upload path); `os.getenv` results are
`Option (List Char)` with `none` for an absent variable. -/

/-- From `LLMService.__init__` line 37: `self.api_configured = api_key !=
"placeholder_key"`.  Note `None != "placeholder_key"` is `True` in Python,
so an absent key counts as configured. -/
def placeholderKey : List Char := str "placeholder_key"

def api_configured_of : Option (List Char) → Bool
  | none => true
  | some k => decide (k ≠ placeholderKey)

structure Col where
  name : List Char
  ctype : List Char
deriving DecidableEq

structure TableCtx where
  table_name : List Char
  columns : List Col
  sample_data : List (List (List Char))
  row_count : Nat
deriving DecidableEq

/-- Decimal rendering of a natural number, Python `str(n)`.  The fuel
`n + 1` strictly exceeds the number of digits, so the accumulator pass
always finishes. -/
def digitChar : Nat → Char
  | 0 => '0' | 1 => '1' | 2 => '2' | 3 => '3' | 4 => '4'
  | 5 => '5' | 6 => '6' | 7 => '7' | 8 => '8' | _ => '9'

def natStrGo : Nat → Nat → List Char → List Char
  | 0, _, acc => acc
  | fuel + 1, n, acc =>
    if n < 10 then digitChar n :: acc
    else natStrGo fuel (n / 10) (digitChar (n % 10) :: acc)

def natStr (n : Nat) : List Char := natStrGo (n + 1) n []

/-- Python `sep.join(parts)`. -/
def joinSep (sep : List Char) : List (List Char) → List Char
  | [] => []
  | [x] => x
  | x :: y :: r => x ++ sep ++ joinSep sep (y :: r)

def catAll : List (List Char) → List Char
  | [] => []
  | x :: r => x ++ catAll r

/-- Line 125: `col_type.upper() in ["TEXT", "VARCHAR", "CHAR", "STRING"]`. -/
def stringTypeNames : List (List Char) :=
  [str "TEXT", str "VARCHAR", str "CHAR", str "STRING"]

def isStringCol (c : Col) : Bool := decide (upperL c.ctype ∈ stringTypeNames)

/-- Lines 114-128: one `- name (TYPE)` line per column, flagging string
columns. -/
def colLine (c : Col) : List Char :=
  str "- " ++ c.name ++ str " (" ++ c.ctype ++ str ")" ++
    (if isStringCol c then str " [STRING - supports fuzzy matching]" else []) ++
    str "\n"

def stringColumns (cols : List Col) : List (List Char) :=
  (cols.filter isStringCol).map Col.name

/-- Python `repr` of a string value (single quotes; values here contain no
quote or escape characters). -/
def squote : Char := Char.ofNat 39

def pyStrRepr (s : List Char) : List Char := squote :: (s ++ [squote])

/-- Lines 135-145: the `row_dict` built column by column and shown with
Python dict `repr` (insertion order; column names assumed distinct, as a
duplicated key would be collapsed by the Python dict). -/
def dictEntries (cols : List Col) (row : List (List Char)) : List (List Char) :=
  (cols.zip (row.take cols.length)).map
    (fun p => pyStrRepr p.1.name ++ str ": " ++ pyStrRepr p.2)

def pyDictRepr (cols : List Col) (row : List (List Char)) : List Char :=
  str "\x7b" ++ joinSep (str ", ") (dictEntries cols row) ++ str "\x7d"

def pyListRepr (row : List (List Char)) : List Char :=
  str "[" ++ joinSep (str ", ") (row.map pyStrRepr) ++ str "]"

/-- Lines 132-149: a typed row is a list, so the `isinstance(row, dict)` arm
never fires; a row shorter than the column list falls to the final
`f"Row \x7bi+1\x7d: \x7brow\x7d"` arm. -/
def rowLine (cols : List Col) (i : Nat) (row : List (List Char)) : List Char :=
  str "Row " ++ natStr (i + 1) ++ str ": " ++
    (if cols.length ≤ row.length then pyDictRepr cols row else pyListRepr row) ++
    str "\n"

def rowsSection (cols : List Col) (rows : List (List (List Char))) : List Char :=
  str "\nSample data (first " ++ natStr (min 3 rows.length) ++
    str " rows):\n" ++
    catAll ((rows.take 3).enum.map (fun p => rowLine cols p.1 p.2))

/-- Lines 171-184: values of one column over the first ten sample rows,
skipping rows without that index and values that strip to empty. -/
def colValues (idx : Nat) (rows : List (List (List Char))) : List (List Char) :=
  (rows.take 10).filterMap (fun row =>
    match row[idx]? with
    | some v => if pstrip v = [] then none else some v
    | none => none)

/-- Line 187: `list(set(sample_values))`.  CPython set iteration order is
hash-dependent and unspecified; the embedding fixes first-occurrence order,
which no theorem below depends on. -/
def dedupGo (seen : List (List Char)) : List (List Char) → List (List Char)
  | [] => []
  | x :: r => if x ∈ seen then dedupGo seen r else x :: dedupGo (x :: seen) r

/-- Lines 157-194: the per-string-column value line (first five unique
values, an ellipsis when more exist). -/
def stringValuesLine (cols : List Col) (rows : List (List (List Char)))
    (colName : List Char) : List Char :=
  match cols.findIdx? (fun c => decide (c.name = colName)) with
  | none => []
  | some idx =>
    let uniq := dedupGo [] (colValues idx rows)
    if uniq = [] then []
    else str "- " ++ colName ++ str ": " ++ joinSep (str ", ") (uniq.take 5) ++
      (if 5 < uniq.length then str "..." else []) ++ str "\n"

def stringValuesSection (cols : List Col) (rows : List (List (List Char))) :
    List Char :=
  if stringColumns cols = [] ∨ rows = [] then []
  else str "\nString values found in data (for typo detection):\n" ++
    catAll ((stringColumns cols).map (stringValuesLine cols rows))

/-- Lines 99-215, `_build_rag_context`.  On typed input every step of the
`try` body is total, so the `except` fallback branch (lines 203-215) is
dead and the main context is always returned. -/
def build_rag_context (t : TableCtx) : List Char :=
  str "Table: " ++ t.table_name ++ str "\nTotal rows: " ++
    natStr t.row_count ++ str "\n\nColumns:\n" ++
    catAll (t.columns.map colLine) ++
    rowsSection t.columns t.sample_data ++
    stringValuesSection t.columns t.sample_data

/-- Lines 226-297: the constant system prompt of `_create_prompt`. -/
def systemPrompt : List Char :=
  str "You are SQLExpert, a specialized AI assistant for generating safe, accurate SQLite queries from natural language.\n\nCORE IDENTITY & PURPOSE:\n- Generate ONLY SELECT queries for data analysis and retrieval\n- NEVER perform data modification, deletion, or schema changes\n- Responses must be deterministic, concise, and executable\n- Prioritize data accuracy and query performance\n\nENHANCED REASONING FOR STRING MATCHING:\nWhen users mention values that don't exactly match the data, think step-by-step:\n\n1. ANALYZE USER INTENT: What is the user actually looking for?\n2. EXAMINE SAMPLE DATA: Look at the actual values in string columns to identify potential matches\n3. NORMALIZE USER INPUT: Treat variations like \"medical/health\", \"medical / health\", \"medical-health\" as equivalent\n4. HANDLE TYPOS AND MISSPELLINGS: \n   - Compare user input with actual data values to detect likely misspellings\n   - Common patterns: \"enjeneering\" → \"engineering\", \"medicne\" → \"medicine\", \"buisness\" → \"business\"\n   - If user input is similar to an actual data value, use the correct spelling from the data\n   - Example: User says \"enjeneering\" but sample data shows \"Engineering\" → use \"ENGINEERING\" in the query\n5. APPLY FUZZY MATCHING STRATEGIES:\n   - Use LIKE with % wildcards for partial matches\n   - Use UPPER() or LOWER() for case-insensitive searches\n   - Consider common variations, abbreviations, or typos\n   - Handle punctuation variations (slashes, dashes, spaces)\n   - Example: User says \"medical/health\" but data has \"Medical and Health Sciences\" → use UPPER(\"Field of Study\") LIKE '%MEDICAL%' AND UPPER(\"Field of Study\") LIKE '%HEALTH%'\n6. BE CONSISTENT: Minor formatting changes in user input should produce similar queries\n\nSECURITY CONSTRAINTS (CRITICAL):\n1. FORBIDDEN: DROP, DELETE, UPDATE, INSERT, ALTER, CREATE, TRUNCATE, EXEC, ATTACH, DETACH\n2. NO dynamic SQL construction or string concatenation\n3. NO subqueries that could cause performance issues unless necessary\n4. REJECT requests for: schema modification, authentication info, system queries, file access\n\nRESPONSE FORMAT (MANDATORY):\n- Return ONLY ONE SQL query - no variations, alternatives, or examples\n- No explanations, markdown, or additional text\n- Must end with semicolon\n- Use proper SQLite syntax only\n- Query must be executable as-is\n- Do NOT provide multiple query options\n\nCONTEXT ANALYSIS PROTOCOL:\n1. Analyze table schema and sample data carefully\n2. Use EXACT column names and table names as provided\n3. For string searches, examine sample data patterns first\n4. Apply fuzzy matching when user terms don't exactly match data\n5. Use appropriate aggregation functions when requested\n\nQUERY OPTIMIZATION:\n- Use index-friendly WHERE clauses when possible\n- Add LIMIT if result set could be large\n- Use appropriate SQL functions (UPPER, LOWER, LIKE, SUBSTR) for string manipulation\n- Prefer simple JOINs over complex subqueries\n- Use proper GROUP BY when aggregating\n\nERROR PREVENTION:\n- Validate column names exist in schema\n- Ensure data type compatibility\n- Handle potential NULL values appropriately\n- Use proper string escaping for text searches\n\nQUERY VALIDATION CHECKLIST:\n✓ Uses only SELECT statement\n✓ References existing columns/tables from context\n✓ Applies fuzzy matching for string searches when needed\n✓ Uses correct SQLite syntax and functions\n✓ Handles data types properly\n✓ Includes LIMIT if result set could be large\n✓ No dangerous operations possible\n\nIf unclear/unsafe: respond \"INVALID_REQUEST\"\nIf outside SQL scope: respond \"OUT_OF_SCOPE\" "

/-- Lines 299-321: `_create_prompt` returns the system prompt and the
f-string user prompt containing the RAG context and the question. -/
def create_prompt (q ragContext : List Char) : List Char × List Char :=
  (systemPrompt,
    str "TABLE CONTEXT:\n" ++ ragContext ++
      str "\n\nUSER QUESTION: " ++ q ++
      str "\n\n<thinking>\nLet me analyze this step by step:\n\n1. Examine the table schema and sample data\n2. Parse the user's question to understand their intent  \n3. Check for potential typos by comparing user terms with actual data values\n4. Apply appropriate string matching (exact, fuzzy, or corrected spelling)\n5. Construct the appropriate SQL query\n\nLooking at the question \"" ++ q ++
      str "\" and the sample data above:\n- Are there any words that might be misspelled?\n- Do any actual data values closely match the user's terms?\n- What's the best way to match the user's intent with the available data?\n</thinking>\n\nSELECT")

inductive GenError where
  | notConfigured
  | loopDiverged
  | validation (e : SqlError)
deriving DecidableEq

/-- Lines 39-97, `generate_sql`: the configured gate, then RAG context,
then prompts, then the network call (abstracted as an oracle from the two
prompts to the model text, with the number of calls made returned
alongside), then validation.  A `none` from the validator is the
non-terminating thinking loop. -/
def generate_sql (fuel : Nat) (apiKey : Option (List Char))
    (oracle : List Char → List Char → List Char)
    (question : List Char) (t : TableCtx) :
    Except GenError (List Char) × Nat :=
  if api_configured_of apiKey = false then
    (.error .notConfigured, 0)
  else
    let ragContext := build_rag_context t
    let prompts := create_prompt question ragContext
    let sql := oracle prompts.1 prompts.2
    match validate_and_clean_sql fuel sql t.table_name with
    | none => (.error .loopDiverged, 1)
    | some (.ok q) => (.ok q, 1)
    | some (.error e) => (.error (.validation e), 1)

/-! ## Basic lemmas about the string primitives -/

theorem startsWithL_iff {p s : List Char} :
    startsWithL p s = true ↔ ∃ r, s = p ++ r := by
  induction p generalizing s with
  | nil => simp [startsWithL]
  | cons c p ih =>
    cases s with
    | nil => simp [startsWithL]
    | cons d s' =>
      simp only [startsWithL, Bool.and_eq_true, decide_eq_true_eq, ih,
        List.cons_append, List.cons.injEq]
      constructor
      · rintro ⟨rfl, r, rfl⟩; exact ⟨r, rfl, rfl⟩
      · rintro ⟨r, rfl, rfl⟩; exact ⟨rfl, r, rfl⟩

theorem startsWithL_refl_append (p r : List Char) :
    startsWithL p (p ++ r) = true :=
  startsWithL_iff.2 ⟨r, rfl⟩

theorem startsWithL_mono {p s : List Char} (t : List Char)
    (h : startsWithL p s = true) : startsWithL p (s ++ t) = true := by
  obtain ⟨r, rfl⟩ := startsWithL_iff.1 h
  simpa [List.append_assoc] using startsWithL_refl_append p (r ++ t)

theorem length_le_of_startsWithL {p s : List Char}
    (h : startsWithL p s = true) : p.length ≤ s.length := by
  obtain ⟨r, rfl⟩ := startsWithL_iff.1 h
  simp

theorem mem_of_startsWithL {p s : List Char} {c : Char}
    (h : startsWithL p s = true) (hc : c ∈ p) : c ∈ s := by
  obtain ⟨r, rfl⟩ := startsWithL_iff.1 h
  exact List.mem_append_left _ hc

theorem containsSub_iff {p s : List Char} :
    containsSub p s = true ↔ ∃ a b, s = a ++ p ++ b := by
  induction s with
  | nil =>
    simp only [containsSub, startsWithL_iff]
    constructor
    · rintro ⟨r, h⟩
      exact ⟨[], r, by simpa using h⟩
    · rintro ⟨a, b, h⟩
      exact ⟨b, by
        rcases List.append_eq_nil.1 h.symm with ⟨h1, h2⟩
        rcases List.append_eq_nil.1 h1 with ⟨rfl, rfl⟩
        simp [h2]⟩
  | cons d s' ih =>
    simp only [containsSub, Bool.or_eq_true, startsWithL_iff, ih]
    constructor
    · rintro (⟨r, h⟩ | ⟨a, b, rfl⟩)
      · exact ⟨[], r, by simpa using h⟩
      · exact ⟨d :: a, b, rfl⟩
    · rintro ⟨a, b, h⟩
      cases a with
      | nil => exact Or.inl ⟨b, by simpa using h⟩
      | cons a0 a' =>
        right
        refine ⟨a', b, ?_⟩
        have h' : d :: s' = a0 :: (a' ++ p ++ b) := by simpa using h
        exact (List.cons.injEq .. ▸ h').2

theorem mem_of_containsSub {p s : List Char} {c : Char}
    (h : containsSub p s = true) (hc : c ∈ p) : c ∈ s := by
  obtain ⟨a, b, rfl⟩ := containsSub_iff.1 h
  exact List.mem_append_left _ (List.mem_append_right _ hc)

theorem containsSub_mono_right {p s : List Char} (t : List Char)
    (h : containsSub p s = true) : containsSub p (s ++ t) = true := by
  obtain ⟨a, b, rfl⟩ := containsSub_iff.1 h
  exact containsSub_iff.2 ⟨a, b ++ t, by simp⟩

theorem containsSub_single {c : Char} {s : List Char} :
    containsSub [c] s = true ↔ c ∈ s := by
  rw [containsSub_iff]
  constructor
  · rintro ⟨a, b, rfl⟩; simp
  · intro h
    obtain ⟨a, b, rfl⟩ := List.append_of_mem h
    exact ⟨a, b, by simp⟩

theorem endsWithL_iff {p s : List Char} :
    endsWithL p s = true ↔ ∃ a, s = a ++ p := by
  unfold endsWithL
  rw [startsWithL_iff]
  constructor
  · rintro ⟨r, h⟩
    refine ⟨r.reverse, ?_⟩
    have := congrArg List.reverse h
    simpa using this
  · rintro ⟨a, rfl⟩
    exact ⟨a.reverse, by simp⟩

theorem endsWithL_concat (s : List Char) (c : Char) :
    endsWithL [c] (s ++ [c]) = true :=
  endsWithL_iff.2 ⟨s, rfl⟩

theorem mem_of_endsWithL {p s : List Char} {c : Char}
    (h : endsWithL p s = true) (hc : c ∈ p) : c ∈ s := by
  obtain ⟨a, rfl⟩ := endsWithL_iff.1 h
  exact List.mem_append_right _ hc

theorem firstOcc_eq_none {p s : List Char} (h : containsSub p s = false) :
    firstOcc p s = none := by
  induction s with
  | nil =>
    simp only [containsSub] at h
    simp [firstOcc, h]
  | cons d s' ih =>
    simp only [containsSub, Bool.or_eq_false_iff] at h
    simp [firstOcc, h.1, ih h.2]

theorem mem_split_first {c : Char} {s : List Char} (h : c ∈ s) :
    ∃ a b, s = a ++ c :: b ∧ c ∉ a := by
  induction s with
  | nil => cases h
  | cons d s' ih =>
    by_cases hd : d = c
    · exact ⟨[], s', by simp [hd], by simp⟩
    · have hs' : c ∈ s' := by
        rcases List.mem_cons.1 h with h1 | h1
        · exact absurd h1.symm hd
        · exact h1
      rcases ih hs' with ⟨a, b, rfl, ha⟩
      exact ⟨d :: a, b, rfl, by
        simp only [List.mem_cons, not_or]
        exact ⟨fun hc => hd hc.symm, ha⟩⟩

theorem concat_inj_right {x y : List Char} {c d : Char}
    (h : x ++ [c] = y ++ [d]) : c = d := by
  have := congrArg List.getLast? h
  simpa using this

theorem exists_snoc {l : List Char} (h : l ≠ []) : ∃ m d, l = m ++ [d] := by
  have hr : l.reverse ≠ [] := by simpa using h
  rcases List.exists_cons_of_ne_nil hr with ⟨d, t, ht⟩
  refine ⟨t.reverse, d, ?_⟩
  have h2 := congrArg List.reverse ht
  simpa using h2

theorem dropWhile_head_not {p : Char → Bool} {l r : List Char} {c : Char}
    (h : l.dropWhile p = c :: r) : p c = false := by
  induction l with
  | nil => simp [List.dropWhile] at h
  | cons d l' ih =>
    rw [List.dropWhile_cons] at h
    by_cases hd : p d
    · exact ih (by simpa [hd] using h)
    · have : d = c := by simpa [hd] using congrArg (fun t => t.head?) h
      simpa [this] using hd

theorem dropWhile_cons_false {p : Char → Bool} {c : Char} (l : List Char)
    (h : p c = false) : (c :: l).dropWhile p = c :: l := by
  simp [List.dropWhile_cons, h]

/-! ## Lemmas about `pstrip` -/

theorem dropWhile_rev_decomp (y : List Char) :
    y = (y.reverse.dropWhile isWs).reverse ++ (y.reverse.takeWhile isWs).reverse := by
  have h := congrArg List.reverse
    (List.takeWhile_append_dropWhile (p := isWs) (l := y.reverse))
  simp only [List.reverse_append, List.reverse_reverse] at h
  exact h.symm

theorem pstrip_decomp (s : List Char) :
    ∃ a b, s = a ++ pstrip s ++ b ∧ (∀ c ∈ a, isWs c = true) ∧
      (∀ c ∈ b, isWs c = true) := by
  refine ⟨s.takeWhile isWs,
    (((s.dropWhile isWs).reverse.takeWhile isWs)).reverse, ?_, ?_, ?_⟩
  · rw [List.append_assoc]
    conv_lhs => rw [← List.takeWhile_append_dropWhile (p := isWs) (l := s)]
    congr 1
    exact dropWhile_rev_decomp (s.dropWhile isWs)
  · exact fun c hc => List.mem_takeWhile_imp hc
  · intro c hc
    exact List.mem_takeWhile_imp (List.mem_reverse.1 hc)

theorem mem_pstrip {s : List Char} {c : Char} (h : c ∈ pstrip s) : c ∈ s := by
  obtain ⟨a, b, hs, _, _⟩ := pstrip_decomp s
  rw [hs]
  exact List.mem_append_left _ (List.mem_append_right _ h)

theorem pstrip_isInfix (s : List Char) : List.IsInfix (pstrip s) s := by
  obtain ⟨a, b, hs, _, _⟩ := pstrip_decomp s
  exact ⟨a, b, hs.symm⟩

theorem pstrip_eq_nil_allWs {s : List Char} (h : pstrip s = []) :
    ∀ c ∈ s, isWs c = true := by
  obtain ⟨a, b, hs, ha, hb⟩ := pstrip_decomp s
  rw [h] at hs
  intro c hc
  rw [hs] at hc
  simp only [List.append_nil, List.mem_append] at hc
  rcases hc with hc | hc
  · exact ha c hc
  · exact hb c hc

theorem pstrip_ne_nil {s : List Char} {c : Char} (hc : c ∈ s)
    (hw : isWs c = false) : pstrip s ≠ [] := by
  intro h
  rw [pstrip_eq_nil_allWs h c hc] at hw
  cases hw

theorem pstrip_head {s m : List Char} {c : Char} (h : pstrip s = c :: m) :
    isWs c = false := by
  have hy : s.dropWhile isWs = pstrip s ++
      ((s.dropWhile isWs).reverse.takeWhile isWs).reverse :=
    dropWhile_rev_decomp (s.dropWhile isWs)
  rw [h] at hy
  exact dropWhile_head_not (by simpa using hy)

theorem pstrip_last {s m : List Char} {d : Char} (h : pstrip s = m ++ [d]) :
    isWs d = false := by
  have : (s.dropWhile isWs).reverse.dropWhile isWs = d :: m.reverse := by
    have := congrArg List.reverse h
    simp only [List.reverse_append] at this
    unfold pstrip at this
    simpa using this
  exact dropWhile_head_not this

theorem pstrip_eq_self_of {s : List Char} (h1 : s.dropWhile isWs = s)
    (h2 : s.reverse.dropWhile isWs = s.reverse) : pstrip s = s := by
  unfold pstrip
  rw [h1, h2, List.reverse_reverse]

theorem pstrip_sandwich {c d : Char} (m : List Char) (hc : isWs c = false)
    (hd : isWs d = false) : pstrip (c :: (m ++ [d])) = c :: (m ++ [d]) := by
  apply pstrip_eq_self_of
  · exact dropWhile_cons_false _ hc
  · have : (c :: (m ++ [d])).reverse = d :: (m.reverse ++ [c]) := by simp
    rw [this]
    exact dropWhile_cons_false _ hd

theorem pstrip_single {c : Char} (hc : isWs c = false) : pstrip [c] = [c] := by
  apply pstrip_eq_self_of
  · exact dropWhile_cons_false _ hc
  · exact dropWhile_cons_false _ hc

theorem pstrip_nonws_front {p w : List Char} (hp : p ≠ [])
    (hnw : ∀ c ∈ p, isWs c = false) :
    ∃ w2, pstrip (p ++ w) = p ++ w2 := by
  obtain ⟨c0, p', hps⟩ := List.exists_cons_of_ne_nil hp
  obtain ⟨m, d, hmd⟩ := exists_snoc hp
  have hc0 : isWs c0 = false := hnw c0 (by rw [hps]; simp)
  have hd : isWs d = false := hnw d (by rw [hmd]; simp)
  have hfront : (p ++ w).dropWhile isWs = p ++ w := by
    rw [hps, List.cons_append]
    exact dropWhile_cons_false _ hc0
  have hrev : (p ++ w).reverse = w.reverse ++ (d :: m.reverse) := by
    rw [hmd]; simp
  unfold pstrip
  rw [hfront, hrev, List.dropWhile_append]
  by_cases hempty : (w.reverse.dropWhile isWs).isEmpty = true
  · rw [if_pos hempty, dropWhile_cons_false _ hd]
    refine ⟨[], ?_⟩
    rw [hmd]; simp
  · rw [if_neg hempty]
    refine ⟨(w.reverse.dropWhile isWs).reverse, ?_⟩
    rw [hmd]; simp

/-! ## Lemmas about the ASCII case maps -/

theorem upChar_ws_fix {c : Char} (h : isWs c = true) : upChar c = c := by
  simp only [isWs, Bool.or_eq_true, decide_eq_true_eq] at h
  rcases h with ((((h | h) | h) | h) | h) | h <;> subst h <;> decide

theorem loChar_ws_fix {c : Char} (h : isWs c = true) : loChar c = c := by
  simp only [isWs, Bool.or_eq_true, decide_eq_true_eq] at h
  rcases h with ((((h | h) | h) | h) | h) | h <;> subst h <;> decide

theorem loChar_of_pair {pr : Char × Char} (hm : pr ∈ caseTable) :
    loChar pr.2 = pr.1 := by
  simp only [caseTable, List.mem_cons, List.not_mem_nil, or_false] at hm
  rcases hm with h|h|h|h|h|h|h|h|h|h|h|h|h|h|h|h|h|h|h|h|h|h|h|h|h|h <;>
    (subst h; decide)

theorem upChar_or_loChar (c : Char) :
    upChar c = c ∨ loChar (upChar c) = c := by
  unfold upChar
  cases hf : caseTable.find? (fun p => p.1 == c) with
  | none => left; rfl
  | some pr =>
    right
    have hc : pr.1 = c := by simpa using List.find?_some hf
    show loChar pr.2 = c
    rw [← hc]
    exact loChar_of_pair (List.mem_of_find?_eq_some hf)

/-! ## Lemmas about whitespace normalization -/

theorem wsnGo_nil (b : Bool) : wsnGo b [] = [] := rfl

theorem wsnGo_cons_ws {c : Char} (b : Bool) (r : List Char) (hc : isWs c = true) :
    wsnGo b (c :: r) = wsnGo true r := by
  simp [wsnGo, hc]

theorem wsnGo_cons_false {c : Char} (r : List Char) (hc : isWs c = false) :
    wsnGo false (c :: r) = c :: wsnGo false r := by
  simp [wsnGo, hc]

theorem wsnGo_cons_true {c : Char} (r : List Char) (hc : isWs c = false) :
    wsnGo true (c :: r) = ' ' :: c :: wsnGo false r := by
  simp [wsnGo, hc]

theorem mem_wsnGo {c : Char} : ∀ {s : List Char} {b : Bool},
    c ∈ wsnGo b s → c ∈ s ∨ c = ' ' := by
  intro s
  induction s with
  | nil => intro b h; simp [wsnGo] at h
  | cons d s' ih =>
    intro b h
    by_cases hd : isWs d
    · rw [wsnGo_cons_ws _ _ hd] at h
      rcases ih h with h1 | h1
      · exact Or.inl (List.mem_cons_of_mem _ h1)
      · exact Or.inr h1
    · cases b with
      | false =>
        rw [wsnGo_cons_false _ (by simpa using hd)] at h
        rcases List.mem_cons.1 h with h1 | h1
        · exact Or.inl (by rw [h1]; simp)
        · rcases ih h1 with h2 | h2
          · exact Or.inl (List.mem_cons_of_mem _ h2)
          · exact Or.inr h2
      | true =>
        rw [wsnGo_cons_true _ (by simpa using hd)] at h
        rcases List.mem_cons.1 h with h1 | h1
        · exact Or.inr h1
        · rcases List.mem_cons.1 h1 with h2 | h2
          · exact Or.inl (by rw [h2]; simp)
          · rcases ih h2 with h3 | h3
            · exact Or.inl (List.mem_cons_of_mem _ h3)
            · exact Or.inr h3

theorem wsnGo_nonws_front {p : List Char} (hp : ∀ c ∈ p, isWs c = false)
    (r : List Char) : wsnGo false (p ++ r) = p ++ wsnGo false r := by
  induction p with
  | nil => rfl
  | cons c p' ih =>
    rw [List.cons_append, wsnGo_cons_false _ (hp c (by simp))]
    rw [ih (fun d hd => hp d (by simp [hd]))]
    rfl

theorem wsnGo_snoc {m : List Char} {d e : Char} (hd : isWs d = false)
    (he : isWs e = false) :
    ∀ b, wsnGo b ((m ++ [d]) ++ [e]) = wsnGo b (m ++ [d]) ++ [e] := by
  induction m with
  | nil =>
    intro b
    cases b with
    | false =>
      simp only [List.nil_append, List.cons_append]
      rw [wsnGo_cons_false _ hd, wsnGo_cons_false _ hd,
        wsnGo_cons_false _ he]
      rfl
    | true =>
      simp only [List.nil_append, List.cons_append]
      rw [wsnGo_cons_true _ hd, wsnGo_cons_true _ hd,
        wsnGo_cons_false _ he]
      rfl
  | cons c m' ih =>
    intro b
    by_cases hc : isWs c
    · simp only [List.cons_append]
      rw [wsnGo_cons_ws _ _ hc, wsnGo_cons_ws _ _ hc]
      exact ih true
    · cases b with
      | false =>
        simp only [List.cons_append]
        rw [wsnGo_cons_false _ (by simpa using hc),
          wsnGo_cons_false _ (by simpa using hc), ih false]
        rfl
      | true =>
        simp only [List.cons_append]
        rw [wsnGo_cons_true _ (by simpa using hc),
          wsnGo_cons_true _ (by simpa using hc), ih false]
        rfl

theorem dropWhile_ne_nil_of_mem {s : List Char} {c : Char} (hc : c ∈ s)
    (hw : isWs c = false) : s.dropWhile isWs ≠ [] := by
  intro h
  have hta := List.takeWhile_append_dropWhile (p := isWs) (l := s)
  rw [h, List.append_nil] at hta
  rw [← hta] at hc
  have := List.mem_takeWhile_imp hc
  rw [hw] at this
  cases this

theorem suffix_snoc {y m : List Char} {d : Char} (h : y <:+ m ++ [d])
    (hy : y ≠ []) : ∃ m2, y = m2 ++ [d] := by
  obtain ⟨t, ht⟩ := h
  obtain ⟨m3, e, rfl⟩ := exists_snoc hy
  refine ⟨m3, ?_⟩
  rw [← List.append_assoc] at ht
  rw [concat_inj_right ht]

theorem wsNormalize_snoc {m : List Char} {d e : Char} (hd : isWs d = false)
    (he : isWs e = false) :
    wsNormalize ((m ++ [d]) ++ [e]) = wsNormalize (m ++ [d]) ++ [e] := by
  unfold wsNormalize
  have hne : (m ++ [d]).dropWhile isWs ≠ [] :=
    dropWhile_ne_nil_of_mem (by simp) hd
  have hdw : ((m ++ [d]) ++ [e]).dropWhile isWs =
      (m ++ [d]).dropWhile isWs ++ [e] := by
    rw [List.dropWhile_append]
    rw [if_neg (by simpa using hne)]
  rw [hdw]
  obtain ⟨m2, hm2⟩ := suffix_snoc (List.dropWhile_suffix (l := m ++ [d]) isWs) hne
  rw [hm2]
  exact wsnGo_snoc hd he false

theorem nrm_cons_ws {c : Char} (b : Bool) (r : List Char) (hc : isWs c = true) :
    nrm b (c :: r) =
      (decide (c = ' ') && !b && !r.isEmpty && nrm true r) := by
  simp [nrm, hc]

theorem nrm_cons_nonws {c : Char} (b : Bool) (r : List Char)
    (hc : isWs c = false) : nrm b (c :: r) = nrm false r := by
  simp [nrm, hc]

theorem nrm_wsnGo (s : List Char) : ∀ b, nrm false (wsnGo b s) = true := by
  induction s with
  | nil => intro b; rfl
  | cons c r ih =>
    intro b
    by_cases hc : isWs c
    · rw [wsnGo_cons_ws _ _ hc]; exact ih true
    · cases b with
      | false =>
        rw [wsnGo_cons_false _ (by simpa using hc)]
        rw [nrm_cons_nonws _ _ (by simpa using hc)]
        exact ih false
      | true =>
        rw [wsnGo_cons_true _ (by simpa using hc)]
        rw [nrm_cons_ws _ _ (by decide)]
        rw [nrm_cons_nonws _ _ (by simpa using hc)]
        simp [ih false]

theorem wsn_id2 (x : List Char) :
    (nrm false x = true → wsnGo false x = x) ∧
      (nrm true x = true → wsnGo true x = if x = [] then [] else ' ' :: x) := by
  induction x with
  | nil => exact ⟨fun _ => rfl, fun _ => rfl⟩
  | cons c r ih =>
    constructor
    · intro h
      by_cases hc : isWs c
      · rw [nrm_cons_ws _ _ hc] at h
        simp only [Bool.and_eq_true, Bool.not_eq_true', decide_eq_true_eq,
          List.isEmpty_eq_false] at h
        obtain ⟨⟨⟨hsp, _⟩, hre⟩, hnr⟩ := h
        rw [wsnGo_cons_ws _ _ hc, ih.2 hnr, if_neg hre, hsp]
      · rw [nrm_cons_nonws _ _ (by simpa using hc)] at h
        rw [wsnGo_cons_false _ (by simpa using hc), ih.1 h]
    · intro h
      by_cases hc : isWs c
      · rw [nrm_cons_ws _ _ hc] at h
        simp at h
      · rw [nrm_cons_nonws _ _ (by simpa using hc)] at h
        rw [wsnGo_cons_true _ (by simpa using hc), ih.1 h]
        simp

theorem wsNormalize_eq_self {x : List Char} (h : nrm true x = true) :
    wsNormalize x = x := by
  cases x with
  | nil => rfl
  | cons c r =>
    by_cases hc : isWs c
    · rw [nrm_cons_ws _ _ hc] at h
      simp at h
    · unfold wsNormalize
      rw [dropWhile_cons_false _ (by simpa using hc)]
      exact (wsn_id2 (c :: r)).1
        (by rw [nrm_cons_nonws _ _ (by simpa using hc)]
            rw [nrm_cons_nonws _ _ (by simpa using hc)] at h
            exact h)

theorem nrm_snoc {x : List Char} {e : Char} (he : isWs e = false) :
    ∀ b, nrm b x = true → nrm b (x ++ [e]) = true := by
  induction x with
  | nil =>
    intro b _
    show nrm b [e] = true
    rw [nrm_cons_nonws _ _ he]
    rfl
  | cons c r ih =>
    intro b h
    by_cases hc : isWs c
    · rw [nrm_cons_ws _ _ hc] at h
      simp only [Bool.and_eq_true, Bool.not_eq_true', decide_eq_true_eq,
        List.isEmpty_eq_false] at h
      obtain ⟨⟨⟨hsp, hb⟩, hre⟩, hnr⟩ := h
      rw [List.cons_append, nrm_cons_ws _ _ hc]
      simp only [Bool.and_eq_true, Bool.not_eq_true', decide_eq_true_eq,
        List.isEmpty_eq_false]
      exact ⟨⟨⟨hsp, hb⟩, by simp⟩, ih true hnr⟩
    · rw [nrm_cons_nonws _ _ (by simpa using hc)] at h
      rw [List.cons_append, nrm_cons_nonws _ _ (by simpa using hc)]
      exact ih false h

theorem nrm_last_nonws {x : List Char} {d : Char} :
    ∀ (m : List Char) (b : Bool), nrm b x = true → x = m ++ [d] → isWs d = false := by
  induction x with
  | nil => intro m b _ hx; exact absurd hx (by simp)
  | cons c r ih =>
    intro m b h hx
    cases r with
    | nil =>
      have hcd : c = d := by
        cases m with
        | nil => simpa using hx
        | cons m0 m' =>
          have h2 : [] = m' ++ [d] := by
            have := (List.cons.injEq ..).mp hx
            exact this.2
          exact absurd h2.symm (by simp)
      by_cases hc : isWs c
      · rw [nrm_cons_ws _ _ hc] at h
        simp at h
      · rw [← hcd]; simpa using hc
    | cons r0 r' =>
      have hm : ∃ m2, r0 :: r' = m2 ++ [d] := by
        cases m with
        | nil =>
          have h2 := (List.cons.injEq ..).mp hx
          exact absurd h2.2 (by simp)
        | cons m0 m' =>
          have h2 := (List.cons.injEq ..).mp hx
          exact ⟨m', h2.2⟩
      obtain ⟨m2, hr⟩ := hm
      by_cases hc : isWs c
      · rw [nrm_cons_ws _ _ hc] at h
        simp only [Bool.and_eq_true] at h
        exact ih m2 true h.2 hr
      · rw [nrm_cons_nonws _ _ (by simpa using hc)] at h
        exact ih m2 false h hr

/-! ## Lemmas about tag patterns and `stripTags` -/

theorem noTagD_nil : NoTagD [] := by
  intro a b h
  exact absurd h (by simp)

theorem snoc_inj {p q : List Char} {u v : Char} (h : p ++ [u] = q ++ [v]) :
    p = q ∧ u = v := by
  have hr := congrArg List.reverse h
  simp only [List.reverse_append, List.reverse_singleton, List.singleton_append] at hr
  have h1 := (List.cons.injEq ..).mp hr
  constructor
  · have := congrArg List.reverse h1.2
    simpa using this
  · exact h1.1

theorem noTagD_cons_iff {c : Char} {y : List Char} :
    NoTagD (c :: y) ↔ NoTagD y ∧ (c = '<' → CondD y) := by
  constructor
  · intro h
    refine ⟨?_, ?_⟩
    · intro a b hab
      exact h (c :: a) b (by rw [hab]; rfl)
    · intro hc
      exact h [] y (by rw [hc]; rfl)
  · rintro ⟨hy, hc⟩ a b hab
    cases a with
    | nil =>
      have h1 := (List.cons.injEq ..).mp (by simpa using hab)
      exact h1.2 ▸ hc h1.1
    | cons a0 a' =>
      have h1 := (List.cons.injEq ..).mp (by simpa using hab)
      exact hy a' b h1.2

theorem noTagD_tail {c : Char} {y : List Char} (h : NoTagD (c :: y)) :
    NoTagD y :=
  (noTagD_cons_iff.1 h).1

theorem noTagD_append_left {x y : List Char} (h : NoTagD (x ++ y)) :
    NoTagD x := by
  intro a b hab
  have hx : x ++ y = a ++ '<' :: (b ++ y) := by rw [hab]; simp
  rcases h a (b ++ y) hx with h1 | ⟨b2, h2⟩ | h3
  · exact Or.inl (List.append_eq_nil.1 h1).1
  · cases b with
    | nil => exact Or.inl rfl
    | cons b0 b' =>
      refine Or.inr (Or.inl ⟨b', ?_⟩)
      have : b0 = '>' := by
        have := congrArg (fun t => t.head?) h2
        simpa using this
      rw [this]
  · exact Or.inr (Or.inr fun hm => h3 (List.mem_append_left _ hm))

theorem noTagD_append_right {x y : List Char} (h : NoTagD (x ++ y)) :
    NoTagD y := by
  intro a b hab
  exact h (x ++ a) b (by rw [hab]; simp)

theorem noTagD_within {x y : List Char} (h : NoTagD x) (hi : List.IsInfix y x) :
    NoTagD y := by
  obtain ⟨s, t, hst⟩ := hi
  rw [← hst] at h
  exact noTagD_append_right (noTagD_append_left h)

theorem noTagD_of_no_gt {x : List Char} (h : '>' ∉ x) : NoTagD x := by
  intro a b hab
  refine Or.inr (Or.inr fun hm => h ?_)
  rw [hab]
  exact List.mem_append_right _ (List.mem_cons_of_mem _ hm)

theorem noTagD_snoc {x : List Char} {c : Char} (hc : c ≠ '>') (h : NoTagD x) :
    NoTagD (x ++ [c]) := by
  intro a b hab
  cases b with
  | nil => exact Or.inl rfl
  | cons b0 b' =>
    have hb : b0 :: b' ≠ [] := by simp
    obtain ⟨b2, e, hbe⟩ := exists_snoc hb
    rw [hbe] at hab
    have hab2 : x ++ [c] = (a ++ '<' :: b2) ++ [e] := by rw [hab]; simp
    obtain ⟨hx, hec⟩ := snoc_inj hab2
    rcases h a b2 hx with h1 | ⟨b3, h3⟩ | h4
    · subst h1
      refine Or.inr (Or.inr fun hm => ?_)
      rw [hbe, List.nil_append] at hm
      have he' : '>' = e := by simpa using hm
      exact hc (hec.trans he'.symm)
    · rw [hbe, h3]
      exact Or.inr (Or.inl ⟨b3 ++ [e], by simp⟩)
    · rw [hbe]
      refine Or.inr (Or.inr fun hm => ?_)
      rcases List.mem_append.1 hm with hm1 | hm1
      · exact h4 hm1
      · have hgt : '>' = e := by simpa using hm1
        exact hc (hec.trans hgt.symm)

theorem stGo_nil_none : stGo [] none = [] := rfl

theorem stGo_nil_some (buf : List Char) :
    stGo [] (some buf) = '<' :: buf.reverse := rfl

theorem stGo_cons_none_lt (r : List Char) :
    stGo ('<' :: r) none = stGo r (some []) := by simp [stGo]

theorem stGo_cons_none {c : Char} (r : List Char) (hc : c ≠ '<') :
    stGo (c :: r) none = c :: stGo r none := by simp [stGo, hc]

theorem stGo_cons_gt_nil (r : List Char) :
    stGo ('>' :: r) (some []) = '<' :: '>' :: stGo r none := by simp [stGo]

theorem stGo_cons_gt {buf : List Char} (r : List Char) (hb : buf ≠ []) :
    stGo ('>' :: r) (some buf) = stGo r none := by simp [stGo, hb]

theorem stGo_cons_some {c : Char} {buf : List Char} (r : List Char)
    (hc : c ≠ '>') : stGo (c :: r) (some buf) = stGo r (some (c :: buf)) := by
  simp [stGo, hc]

theorem mem_stGo {c : Char} : ∀ {s : List Char} {st : Option (List Char)},
    c ∈ stGo s st → c ∈ s ∨ c = '<' ∨ ∃ buf, st = some buf ∧ c ∈ buf := by
  intro s
  induction s with
  | nil =>
    intro st h
    cases st with
    | none => simp [stGo_nil_none] at h
    | some buf =>
      rw [stGo_nil_some] at h
      rcases List.mem_cons.1 h with h1 | h1
      · exact Or.inr (Or.inl h1)
      · exact Or.inr (Or.inr ⟨buf, rfl, List.mem_reverse.1 h1⟩)
  | cons d r ih =>
    intro st h
    cases st with
    | none =>
      by_cases hd : d = '<'
      · subst hd
        rw [stGo_cons_none_lt] at h
        rcases ih h with h1 | h1 | ⟨buf, hbuf, hm⟩
        · exact Or.inl (List.mem_cons_of_mem _ h1)
        · exact Or.inr (Or.inl h1)
        · have : buf = [] := by simpa using hbuf.symm
          rw [this] at hm
          cases hm
      · rw [stGo_cons_none _ hd] at h
        rcases List.mem_cons.1 h with h1 | h1
        · exact Or.inl (by rw [h1]; simp)
        · rcases ih h1 with h2 | h2 | ⟨buf, hbuf, _⟩
          · exact Or.inl (List.mem_cons_of_mem _ h2)
          · exact Or.inr (Or.inl h2)
          · cases hbuf
    | some buf =>
      by_cases hd : d = '>'
      · subst hd
        by_cases hbe : buf = []
        · subst hbe
          rw [stGo_cons_gt_nil] at h
          rcases List.mem_cons.1 h with h1 | h1
          · exact Or.inr (Or.inl h1)
          · rcases List.mem_cons.1 h1 with h2 | h2
            · exact Or.inl (by rw [h2]; simp)
            · rcases ih h2 with h3 | h3 | ⟨buf2, hbuf2, _⟩
              · exact Or.inl (List.mem_cons_of_mem _ h3)
              · exact Or.inr (Or.inl h3)
              · cases hbuf2
        · rw [stGo_cons_gt _ hbe] at h
          rcases ih h with h1 | h1 | ⟨buf2, hbuf2, _⟩
          · exact Or.inl (List.mem_cons_of_mem _ h1)
          · exact Or.inr (Or.inl h1)
          · cases hbuf2
      · rw [stGo_cons_some _ hd] at h
        rcases ih h with h1 | h1 | ⟨buf2, hbuf2, hm⟩
        · exact Or.inl (List.mem_cons_of_mem _ h1)
        · exact Or.inr (Or.inl h1)
        · have hb2 : buf2 = d :: buf := by simpa using hbuf2.symm
          rw [hb2] at hm
          rcases List.mem_cons.1 hm with h2 | h2
          · exact Or.inl (by rw [h2]; simp)
          · exact Or.inr (Or.inr ⟨buf, rfl, h2⟩)

theorem stGo_no_gt {rest : List Char} (h : '>' ∉ rest) :
    ∀ buf, stGo rest (some buf) = '<' :: (buf.reverse ++ rest) := by
  induction rest with
  | nil => intro buf; rw [stGo_nil_some]; simp
  | cons c r ih =>
    intro buf
    have hc : c ≠ '>' := by
      intro hgt
      exact h (by rw [hgt]; simp)
    rw [stGo_cons_some _ hc, ih (fun hm => h (List.mem_cons_of_mem _ hm))]
    simp

theorem noTagD_stGo : ∀ s : List Char,
    NoTagD (stGo s none) ∧
      ∀ buf, '>' ∉ buf → NoTagD (stGo s (some buf)) := by
  intro s
  induction s with
  | nil =>
    refine ⟨noTagD_nil, fun buf hb => noTagD_of_no_gt ?_⟩
    rw [stGo_nil_some]
    simp only [List.mem_cons, List.mem_reverse, not_or]
    exact ⟨by decide, hb⟩
  | cons c r ih =>
    constructor
    · by_cases hc : c = '<'
      · subst hc
        rw [stGo_cons_none_lt]
        exact ih.2 [] (by simp)
      · rw [stGo_cons_none _ hc]
        exact noTagD_cons_iff.2 ⟨ih.1, fun h => absurd h hc⟩
    · intro buf hb
      by_cases hgt : c = '>'
      · subst hgt
        by_cases hbe : buf = []
        · subst hbe
          rw [stGo_cons_gt_nil]
          refine noTagD_cons_iff.2 ⟨?_, fun _ => Or.inr (Or.inl ⟨stGo r none, rfl⟩)⟩
          exact noTagD_cons_iff.2 ⟨ih.1, fun h => absurd h (by decide)⟩
        · rw [stGo_cons_gt _ hbe]
          exact ih.1
      · rw [stGo_cons_some _ hgt]
        refine ih.2 (c :: buf) ?_
        simp only [List.mem_cons, not_or]
        exact ⟨fun h => hgt h.symm, hb⟩

theorem noTagD_stripTags (s : List Char) : NoTagD (stripTags s) :=
  (noTagD_stGo s).1

theorem stGo_id : ∀ s : List Char,
    (NoTagD s → stGo s none = s) ∧
      (CondD s → NoTagD s → stGo s (some []) = '<' :: s) := by
  intro s
  induction s with
  | nil => exact ⟨fun _ => rfl, fun _ _ => rfl⟩
  | cons c r ih =>
    constructor
    · intro h
      by_cases hc : c = '<'
      · subst hc
        rw [stGo_cons_none_lt]
        exact ih.2 ((noTagD_cons_iff.1 h).2 rfl) (noTagD_tail h)
      · rw [stGo_cons_none _ hc, ih.1 (noTagD_tail h)]
    · intro hcond hno
      rcases hcond with h1 | ⟨b2, h2⟩ | h3
      · exact absurd h1 (by simp)
      · have hcgt : c = '>' ∧ r = b2 := by
          have := (List.cons.injEq ..).mp h2
          exact ⟨this.1, this.2⟩
        rw [hcgt.1, stGo_cons_gt_nil, ih.1 (noTagD_tail hno)]
      · rw [stGo_no_gt h3 []]
        simp

theorem stripTags_eq_self {s : List Char} (h : NoTagD s) : stripTags s = s :=
  (stGo_id s).1 h

theorem containsSub_thinkOpen_eq_false {q : List Char} (h : NoTagD q) :
    containsSub thinkOpen q = false := by
  cases hcs : containsSub thinkOpen q with
  | false => rfl
  | true =>
    exfalso
    obtain ⟨a, b, hab⟩ := containsSub_iff.1 hcs
    have hto : q = a ++ '<' :: (str "thinking>" ++ b) := by
      rw [hab]
      have : thinkOpen = '<' :: str "thinking>" := by decide
      rw [this]
      simp
    rcases h a (str "thinking>" ++ b) hto with h1 | ⟨b2, h2⟩ | h3
    · exact absurd h1 (by simp [str])
    · have hth : ('t' : Char) = '>' := by
        have hh := congrArg (fun t => t.head?) h2
        simp only [str, List.cons_append, List.head?_cons] at hh
        exact (Option.some.injEq .. ▸ hh)
      exact absurd hth (by decide)
    · exact h3 (List.mem_append_left _ (by decide))

theorem noTagD_prepend {p x : List Char} (hp : '<' ∉ p) (h : NoTagD x) :
    NoTagD (p ++ x) := by
  induction p with
  | nil => exact h
  | cons c p' ih =>
    rw [List.cons_append]
    refine noTagD_cons_iff.2 ⟨ih (fun hm => hp (List.mem_cons_of_mem _ hm)), ?_⟩
    intro hc
    exact absurd (by rw [hc]; exact List.mem_cons_self _ _) hp

theorem noTagD_wsnGo {s : List Char} (h : NoTagD s) :
    ∀ b, NoTagD (wsnGo b s) := by
  induction s with
  | nil => intro b; rw [wsnGo_nil]; exact noTagD_nil
  | cons c r ih =>
    intro b
    by_cases hws : isWs c
    · rw [wsnGo_cons_ws _ _ hws]
      exact ih (noTagD_tail h) true
    · have hcore : NoTagD (c :: wsnGo false r) := by
        refine noTagD_cons_iff.2 ⟨ih (noTagD_tail h) false, ?_⟩
        intro hc
        rcases (noTagD_cons_iff.1 h).2 hc with h1 | ⟨r2, h2⟩ | h3
        · rw [h1, wsnGo_nil]
          exact Or.inl rfl
        · rw [h2, wsnGo_cons_false _ (by decide)]
          exact Or.inr (Or.inl ⟨wsnGo false r2, rfl⟩)
        · refine Or.inr (Or.inr fun hm => ?_)
          rcases mem_wsnGo hm with hm1 | hm1
          · exact h3 hm1
          · exact absurd hm1 (by decide)
      cases b with
      | false =>
        rw [wsnGo_cons_false _ (by simpa using hws)]
        exact hcore
      | true =>
        rw [wsnGo_cons_true _ (by simpa using hws)]
        exact noTagD_cons_iff.2 ⟨hcore, fun h' => absurd h' (by decide)⟩

theorem noTagD_wsNormalize {s : List Char} (h : NoTagD s) :
    NoTagD (wsNormalize s) := by
  unfold wsNormalize
  have hsplit : s.takeWhile isWs ++ s.dropWhile isWs = s :=
    List.takeWhile_append_dropWhile _ _
  have hdw : NoTagD (s.dropWhile isWs) :=
    noTagD_append_right (x := s.takeWhile isWs) (by rwa [hsplit])
  exact noTagD_wsnGo hdw false

/-! ## Appending the terminating `;` does not change any scan -/

theorem upperL_append (x y : List Char) :
    upperL (x ++ y) = upperL x ++ upperL y := List.map_append _ _ _

theorem lowerL_append (x y : List Char) :
    lowerL (x ++ y) = lowerL x ++ lowerL y := List.map_append _ _ _

theorem upperL_snoc_semi (x : List Char) :
    upperL (x ++ [';']) = upperL x ++ [';'] := by
  rw [upperL_append]
  congr 1

theorem lowerL_snoc_semi (x : List Char) :
    lowerL (x ++ [';']) = lowerL x ++ [';'] := by
  rw [lowerL_append]
  congr 1

theorem startsWithL_nil_eq (p : List Char) :
    startsWithL p [] = p.isEmpty := by
  cases p <;> rfl

theorem startsWithL_snoc_of_not_mem {p : List Char} {c : Char} (hc : c ∉ p) :
    ∀ y, startsWithL p (y ++ [c]) = startsWithL p y := by
  induction p with
  | nil => intro y; rfl
  | cons a p' ih =>
    intro y
    cases y with
    | nil =>
      have ha : a ≠ c := fun h => hc (by rw [h]; simp)
      show startsWithL (a :: p') [c] = startsWithL (a :: p') []
      simp [startsWithL, ha]
    | cons d y' =>
      show startsWithL (a :: p') (d :: (y' ++ [c])) = startsWithL (a :: p') (d :: y')
      simp only [startsWithL]
      rw [ih (fun hm => hc (List.mem_cons_of_mem _ hm)) y']

theorem afterOk_snoc {kl : Nat} {y : List Char} {c : Char}
    (hkl : kl ≤ y.length) (hc : wordChar c = false) :
    afterOk kl (y ++ [c]) = afterOk kl y := by
  unfold afterOk
  have hd : (y ++ [c]).drop kl = y.drop kl ++ [c] := by
    rw [List.drop_append_eq_append_drop]
    have : kl - y.length = 0 := Nat.sub_eq_zero_of_le hkl
    rw [this]
    rfl
  rw [hd]
  cases hdr : y.drop kl with
  | nil => simp [hc]
  | cons e r => simp

theorem wbScan_nil (kw : List Char) (prev : Option Char) :
    wbScan kw prev [] =
      (startsWithL kw [] && beforeOk prev && afterOk kw.length []) := by
  simp [wbScan]

theorem wbScan_cons (kw : List Char) (prev : Option Char) (c : Char)
    (rest : List Char) :
    wbScan kw prev (c :: rest) =
      ((startsWithL kw (c :: rest) && beforeOk prev &&
          afterOk kw.length (c :: rest)) ||
        wbScan kw (some c) rest) := by
  rw [wbScan]

theorem wbScan_snoc {kw : List Char} {c : Char} (hkw : kw ≠ []) (hcm : c ∉ kw)
    (hwc : wordChar c = false) :
    ∀ (x : List Char) (prev : Option Char),
      wbScan kw prev (x ++ [c]) = wbScan kw prev x := by
  have hsw1 : startsWithL kw [c] = false := by
    rw [← List.nil_append [c], startsWithL_snoc_of_not_mem hcm]
    rw [startsWithL_nil_eq]
    simpa using hkw
  have hsw0 : startsWithL kw [] = false := by
    rw [startsWithL_nil_eq]
    simpa using hkw
  intro x
  induction x with
  | nil =>
    intro prev
    show wbScan kw prev [c] = wbScan kw prev []
    rw [wbScan_cons, wbScan_nil, wbScan_nil]
    rw [hsw0, hsw1]
    simp
  | cons d x' ih =>
    intro prev
    show wbScan kw prev (d :: (x' ++ [c])) = wbScan kw prev (d :: x')
    rw [wbScan_cons, wbScan_cons, ih (some d)]
    have hfirst : (startsWithL kw (d :: (x' ++ [c])) &&
        beforeOk prev && afterOk kw.length (d :: (x' ++ [c]))) =
        (startsWithL kw (d :: x') && beforeOk prev &&
          afterOk kw.length (d :: x')) := by
      cases hsw : startsWithL kw (d :: x') with
      | false =>
        have h0 : startsWithL kw (d :: (x' ++ [c])) = false := by
          rw [show d :: (x' ++ [c]) = (d :: x') ++ [c] by rfl]
          rw [startsWithL_snoc_of_not_mem hcm, hsw]
        rw [h0]
        simp
      | true =>
        have h1 : startsWithL kw (d :: (x' ++ [c])) = true := by
          rw [show d :: (x' ++ [c]) = (d :: x') ++ [c] by rfl]
          rw [startsWithL_snoc_of_not_mem hcm, hsw]
        have h2 : afterOk kw.length (d :: (x' ++ [c])) =
            afterOk kw.length (d :: x') := by
          rw [show d :: (x' ++ [c]) = (d :: x') ++ [c] by rfl]
          exact afterOk_snoc (length_le_of_startsWithL hsw) hwc
        rw [h1, h2]
    rw [hfirst]

theorem containsSub_nil_eq (p : List Char) :
    containsSub p [] = startsWithL p [] := rfl

theorem containsSub_cons (p : List Char) (d : Char) (r : List Char) :
    containsSub p (d :: r) = (startsWithL p (d :: r) || containsSub p r) := rfl

theorem containsSub_snoc {p : List Char} {c : Char} (hp : p ≠ []) (hc : c ∉ p) :
    ∀ y, containsSub p (y ++ [c]) = containsSub p y := by
  have hsw1 : startsWithL p [c] = false := by
    rw [← List.nil_append [c], startsWithL_snoc_of_not_mem hc]
    rw [startsWithL_nil_eq]
    simpa using hp
  intro y
  induction y with
  | nil =>
    show containsSub p [c] = containsSub p []
    rw [containsSub_cons, containsSub_nil_eq, hsw1]
    simp
  | cons d y' ih =>
    show containsSub p (d :: (y' ++ [c])) = containsSub p (d :: y')
    rw [containsSub_cons, containsSub_cons, ih]
    rw [show d :: (y' ++ [c]) = (d :: y') ++ [c] by rfl]
    rw [startsWithL_snoc_of_not_mem hc]

theorem find?_congr {α : Type} {p q : α → Bool} :
    ∀ l : List α, (∀ a ∈ l, p a = q a) → l.find? p = l.find? q := by
  intro l
  induction l with
  | nil => intro _; rfl
  | cons a l' ih =>
    intro h
    rw [List.find?_cons, List.find?_cons, h a (by simp)]
    cases q a with
    | false => exact ih fun b hb => h b (by simp [hb])
    | true => rfl

theorem dangerousHit_snoc (u : List Char) :
    dangerousHit (upperL (u ++ [';'])) = dangerousHit (upperL u) := by
  rw [upperL_snoc_semi]
  unfold dangerousHit
  apply find?_congr
  intro kw hkw
  have hside : kw ≠ [] ∧ ';' ∉ kw ∧ wordChar ';' = false := by
    have : ∀ k ∈ dangerousKeywords, k ≠ [] ∧ ';' ∉ k := by decide
    exact ⟨(this kw hkw).1, (this kw hkw).2, by decide⟩
  unfold wordBounded
  exact wbScan_snoc hside.1 hside.2.1 hside.2.2 (upperL u) none

theorem injectionHit_snoc (u : List Char) :
    injectionHit (lowerL (u ++ [';'])) = injectionHit (lowerL u) := by
  rw [lowerL_snoc_semi]
  unfold injectionHit
  apply find?_congr
  intro p hp
  have hside : lowerL p ≠ [] ∧ ';' ∉ lowerL p := by
    have : ∀ k ∈ injectionPats, lowerL k ≠ [] ∧ ';' ∉ lowerL k := by decide
    exact this p hp
  exact containsSub_snoc hside.1 hside.2 (lowerL u)

/-! ## Lemmas about statement splitting on `;` -/

theorem splitSemi_cons_semi (r : List Char) :
    splitSemi (';' :: r) = [] :: splitSemi r := by
  simp [splitSemi]

theorem splitSemi_ne_nil : ∀ s : List Char, splitSemi s ≠ [] := by
  intro s
  induction s with
  | nil => simp [splitSemi]
  | cons c r ih =>
    by_cases hc : c = ';'
    · rw [hc, splitSemi_cons_semi]; simp
    · simp only [splitSemi, if_neg hc]
      cases hsp : splitSemi r with
      | nil => simp
      | cons p ps => simp

theorem splitSemi_cons_ne {c : Char} {r : List Char} {p : List Char}
    {ps : List (List Char)} (hc : c ≠ ';') (hr : splitSemi r = p :: ps) :
    splitSemi (c :: r) = (c :: p) :: ps := by
  simp [splitSemi, hc, hr]

theorem splitSemi_sep {w : List Char} (hw : ';' ∉ w) (r : List Char) :
    splitSemi (w ++ ';' :: r) = w :: splitSemi r := by
  induction w with
  | nil => simpa using splitSemi_cons_semi r
  | cons c w' ih =>
    have hc : c ≠ ';' := fun h => hw (by rw [h]; simp)
    have ih' := ih (fun hm => hw (List.mem_cons_of_mem _ hm))
    rw [List.cons_append]
    exact splitSemi_cons_ne hc ih'

theorem semiSplit_no_semi {s : List Char} (h : ';' ∉ s) : semiSplit s = s := by
  unfold semiSplit
  rw [if_neg]
  intro hcs
  exact h (containsSub_single.1 hcs)

theorem semiSplit_first {w : List Char} (r : List Char) (hw : ';' ∉ w)
    (hpw : pstrip w ≠ []) :
    semiSplit (w ++ ';' :: r) = pstrip w ++ [';'] := by
  unfold semiSplit
  have hg : containsSub (str ";") (w ++ ';' :: r) = true :=
    containsSub_single.2 (by simp)
  rw [if_pos hg]
  rw [splitSemi_sep hw r]
  rw [List.map_cons]
  rw [List.filter_cons_of_pos (by simpa using hpw)]
  have hend : endsWithL (str ";") (pstrip w) = false := by
    cases hend : endsWithL (str ";") (pstrip w) with
    | false => rfl
    | true =>
      exfalso
      exact hw (mem_pstrip (mem_of_endsWithL hend (by decide)))
  show (if endsWithL (str ";") (pstrip w) = true then pstrip w
    else pstrip w ++ str ";") = pstrip w ++ [';']
  rw [hend]
  simp
  rfl

/-! ## The `SELECT` entry prefix is preserved down the pipeline -/

theorem strSELECT : str "SELECT" = ['S', 'E', 'L', 'E', 'C', 'T'] := rfl

theorem sel_decomp {s : List Char}
    (h : startsWithL (str "SELECT") (upperL s) = true) :
    ∃ p r, s = p ++ r ∧ upperL p = str "SELECT" ∧ p.length = 6 := by
  obtain ⟨rest, hrest⟩ := startsWithL_iff.1 h
  have hlen : s.length = 6 + rest.length := by
    have hl := congrArg List.length hrest
    simp [upperL, str] at hl
    omega
  refine ⟨s.take 6, s.drop 6, (List.take_append_drop 6 s).symm, ?_, ?_⟩
  · show (s.take 6).map upChar = str "SELECT"
    rw [List.map_take]
    show (upperL s).take 6 = str "SELECT"
    rw [hrest]
    rw [show (6 : Nat) = (str "SELECT").length from rfl, List.take_left]
  · simp [List.length_take, hlen]

theorem sel_char_props {c : Char} (h : upChar c ∈ str "SELECT") :
    isWs c = false ∧ c ≠ ';' ∧ c ≠ '`' ∧ c ≠ '<' := by
  refine ⟨?_, ?_, ?_, ?_⟩
  · cases hw : isWs c with
    | false => rfl
    | true =>
      rw [upChar_ws_fix hw] at h
      have hws : ∀ d ∈ str "SELECT", isWs d = false := by decide
      rw [hws c h] at hw
      cases hw
  · intro hceq; rw [hceq] at h; revert h; decide
  · intro hceq; rw [hceq] at h; revert h; decide
  · intro hceq; rw [hceq] at h; revert h; decide

theorem sel_mem_char {p : List Char} (hup : upperL p = str "SELECT") {c : Char}
    (hc : c ∈ p) : upChar c ∈ str "SELECT" := by
  rw [← hup]
  exact List.mem_map_of_mem _ hc

theorem sel_two {p : List Char} (h : upperL p = str "SELECT") :
    ∃ c0 c1 p2, p = c0 :: c1 :: p2 ∧ upChar c0 = 'S' ∧ upChar c1 = 'E' := by
  cases p with
  | nil => exact absurd h (by simp [upperL]; decide)
  | cons c0 t =>
    cases t with
    | nil =>
      exfalso
      have := congrArg List.length h
      simp [upperL, str] at this
    | cons c1 p2 =>
      rw [strSELECT] at h
      simp only [upperL, List.map_cons, List.cons.injEq] at h
      exact ⟨c0, c1, p2, rfl, h.1, h.2.1⟩

theorem loChar_eq_of_upChar_S {c : Char} (h : upChar c = 'S') : loChar c = 's' := by
  rcases upChar_or_loChar c with h1 | h1
  · rw [h1] at h; rw [h]; decide
  · rw [h] at h1
    have hc : c = 's' := h1.symm.trans (by decide)
    rw [hc]
    decide

theorem loChar_eq_of_upChar_E {c : Char} (h : upChar c = 'E') : loChar c = 'e' := by
  rcases upChar_or_loChar c with h1 | h1
  · rw [h1] at h; rw [h]; decide
  · rw [h] at h1
    have hc : c = 'e' := h1.symm.trans (by decide)
    rw [hc]
    decide

theorem sel_startsWith_of_front {p z : List Char} (hup : upperL p = str "SELECT") :
    startsWithL (str "SELECT") (upperL (p ++ z)) = true := by
  rw [upperL_append, hup]
  exact startsWithL_refl_append _ _

theorem sel_wsNormalize {x : List Char}
    (h : startsWithL (str "SELECT") (upperL x) = true) :
    ∃ p z, x = p ++ z ∧ upperL p = str "SELECT" ∧ p ≠ [] ∧
      (∀ c ∈ p, isWs c = false) ∧
      wsNormalize x = p ++ wsnGo false z := by
  obtain ⟨p, r, rfl, hup, hlen⟩ := sel_decomp h
  have hnw : ∀ c ∈ p, isWs c = false :=
    fun c hc => (sel_char_props (sel_mem_char hup hc)).1
  have hpne : p ≠ [] := by
    intro hp
    rw [hp] at hlen
    simp at hlen
  refine ⟨p, r, rfl, hup, hpne, hnw, ?_⟩
  obtain ⟨c0, p', rfl⟩ := List.exists_cons_of_ne_nil hpne
  unfold wsNormalize
  rw [List.cons_append, dropWhile_cons_false _ (hnw c0 (by simp))]
  rw [← List.cons_append]
  exact wsnGo_nonws_front hnw r

theorem sel_semiSplit_cases {s : List Char}
    (h : startsWithL (str "SELECT") (upperL s) = true) :
    (';' ∉ s ∧ semiSplit s = s) ∨
      (∃ w r, s = w ++ ';' :: r ∧ ';' ∉ w ∧ semiSplit s = pstrip w ++ [';'] ∧
        startsWithL (str "SELECT") (upperL (pstrip w)) = true ∧
        pstrip w ≠ []) := by
  by_cases hm : ';' ∈ s
  · right
    obtain ⟨w, r, hs, hwn⟩ := mem_split_first hm
    obtain ⟨p, rest, hpr, hup, hlen⟩ := sel_decomp h
    have hpne : p ≠ [] := by
      intro hp
      rw [hp] at hlen
      simp at hlen
    have hnw : ∀ c ∈ p, isWs c = false :=
      fun c hc => (sel_char_props (sel_mem_char hup hc)).1
    have hnsemi : ∀ c ∈ p, c ≠ ';' :=
      fun c hc => (sel_char_props (sel_mem_char hup hc)).2.1
    have hwp : ∃ w', w = p ++ w' := by
      have heq : w ++ ';' :: r = p ++ rest := by rw [← hs, ← hpr]
      rcases List.append_eq_append_iff.1 heq with ⟨a', ha1, ha2⟩ | ⟨c', hc1, hc2⟩
      · cases a' with
        | nil => exact ⟨[], by rw [ha1]; simp⟩
        | cons a0 a'' =>
          exfalso
          have ha0 : a0 = ';' := by
            have := congrArg (fun t => t.head?) ha2
            simpa using this.symm
          have : a0 ∈ p := by rw [ha1]; simp
          exact hnsemi a0 this ha0
      · exact ⟨c', hc1⟩
    obtain ⟨w', rfl⟩ := hwp
    obtain ⟨w2, hw2⟩ := pstrip_nonws_front hpne hnw
    refine ⟨p ++ w', r, hs, hwn, ?_, ?_, ?_⟩
    · rw [hs]
      exact semiSplit_first r hwn (by rw [hw2]; simp [hpne])
    · rw [hw2]
      exact sel_startsWith_of_front hup
    · rw [hw2]; simp [hpne]
  · left
    exact ⟨hm, semiSplit_no_semi hm⟩

theorem mem_wsNormalize {c : Char} {x : List Char} (h : c ∈ wsNormalize x) :
    c ∈ x ∨ c = ' ' := by
  unfold wsNormalize at h
  rcases mem_wsnGo h with h1 | h1
  · exact Or.inl ((List.dropWhile_suffix isWs).subset h1)
  · exact Or.inr h1

/-! ## Support for the main soundness lemma -/

theorem stripLeadIns_isInfix (x : List Char) :
    List.IsInfix (stripLeadIns x) x := by
  unfold stripLeadIns
  generalize leadIns = l
  induction l generalizing x with
  | nil => exact List.infix_refl _
  | cons p l' ih =>
    rw [List.foldl_cons]
    refine List.IsInfix.trans (ih _) ?_
    by_cases hc : startsWithL (lowerL p) (lowerL x) = true
    · rw [if_pos hc]
      exact (pstrip_isInfix _).trans (List.drop_suffix _ _).isInfix
    · rw [if_neg hc]

theorem sel_of_prepended (z : List Char) :
    startsWithL (str "SELECT") (upperL (str "SELECT " ++ z)) = true := by
  rw [upperL_append]
  have h1 : upperL (str "SELECT ") = str "SELECT" ++ [' '] := by decide
  rw [h1, List.append_assoc]
  exact startsWithL_refl_append _ _

theorem nrm_true_wsNormalize (x : List Char) : nrm true (wsNormalize x) = true := by
  unfold wsNormalize
  cases hy : x.dropWhile isWs with
  | nil => rfl
  | cons c r =>
    have hc : isWs c = false := dropWhile_head_not hy
    rw [wsnGo_cons_false _ hc, nrm_cons_nonws _ _ hc]
    exact nrm_wsnGo r false

theorem endsWith_semi_concat (b0 : List Char) :
    endsWithL (str ";") (b0 ++ [';']) = true :=
  endsWithL_iff.2 ⟨b0, rfl⟩

theorem endsWith_semi_false {u : List Char} (h : ';' ∉ u) :
    endsWithL (str ";") u = false := by
  cases hend : endsWithL (str ";") u with
  | false => rfl
  | true => exact absurd (mem_of_endsWithL hend (by decide)) h

theorem terminate_no_semi {u : List Char} (h : ';' ∉ u) :
    terminate u = u ++ [';'] := by
  unfold terminate
  rw [endsWith_semi_false h]
  simp only [Bool.false_eq_true, if_false]
  rfl

theorem terminate_semi (b0 : List Char) :
    terminate (b0 ++ [';']) = b0 ++ [';'] := by
  unfold terminate
  rw [endsWith_semi_concat]
  simp

theorem finalChecks_ok_inv {tbl u q : List Char}
    (hfc : finalChecks tbl u = .ok q) :
    dangerousHit (upperL u) = none ∧
      startsWithL (str "SELECT") (upperL u) = true ∧
      injectionHit (lowerL u) = none ∧
      containsSub (lowerL tbl) (lowerL u) = true ∧
      q = terminate u ∧ q.count '(' = q.count ')' := by
  unfold finalChecks at hfc
  cases hdh : dangerousHit (upperL u) with
  | some kw => rw [hdh] at hfc; simp at hfc
  | none =>
    rw [hdh] at hfc
    by_cases hsel : startsWithL (str "SELECT") (upperL u) = true
    · rw [if_pos hsel] at hfc
      cases hih : injectionHit (lowerL u) with
      | some pat => rw [hih] at hfc; simp at hfc
      | none =>
        rw [hih] at hfc
        by_cases hts : containsSub (lowerL tbl) (lowerL u) = true
        · rw [if_pos hts] at hfc
          by_cases hpar : (terminate u).count '(' = (terminate u).count ')'
          · rw [if_pos hpar] at hfc
            have hq : terminate u = q := by
              have := hfc
              simp at this
              exact this
            exact ⟨rfl, hsel, rfl, hts, hq.symm, by rw [← hq]; exact hpar⟩
          · rw [if_neg hpar] at hfc; simp at hfc
        · rw [if_neg hts] at hfc; simp at hfc
    · rw [if_neg hsel] at hfc; simp at hfc

theorem good_of_stage {tbl s7 q : List Char} (htag : NoTagD s7)
    (hsel : startsWithL (str "SELECT") (upperL s7) = true)
    (hfc : finalChecks tbl (wsNormalize (semiSplit s7)) = .ok q) :
    GoodOut tbl q := by
  obtain ⟨hdh, husel, hih, hts, hqt, hpar⟩ := finalChecks_ok_inv hfc
  rcases sel_semiSplit_cases hsel with ⟨hns, hss⟩ | ⟨w, r, hsw, hwn, hss, hselw, hwne⟩
  · -- the text had no `;`: the terminator is appended after the checks
    rw [hss] at hdh husel hih hts hqt
    have husemi : ';' ∉ wsNormalize s7 := by
      intro hm
      rcases mem_wsNormalize hm with hm1 | hm1
      · exact hns hm1
      · exact absurd hm1 (by decide)
    rw [terminate_no_semi husemi] at hqt
    have hnrm : nrm true (wsNormalize s7) = true := nrm_true_wsNormalize s7
    have hune : wsNormalize s7 ≠ [] := by
      obtain ⟨p, z, hpz, hup, hpne, hpnws, hwneq⟩ := sel_wsNormalize hsel
      rw [hwneq]
      intro hnil
      exact hpne (List.append_eq_nil.1 hnil).1
    obtain ⟨w0, d, hw0d⟩ := exists_snoc hune
    refine ⟨⟨w0, d, ?_, ?_, ?_, ?_, ?_⟩, ?_, ?_, ?_, ?_, ?_, ?_⟩
    · rw [hqt, hw0d]
    · exact nrm_last_nonws w0 true hnrm hw0d
    · intro hdeq
      exact husemi (by rw [hw0d, hdeq]; simp)
    · intro hm
      exact husemi (by rw [hw0d]; exact List.mem_append_left _ hm)
    · rw [← hw0d]; exact hnrm
    · rw [hqt, upperL_snoc_semi]
      exact startsWithL_mono _ husel
    · rw [hqt]
      exact noTagD_snoc (by decide) (noTagD_wsNormalize htag)
    · rw [hqt, dangerousHit_snoc]
      exact hdh
    · rw [hqt, injectionHit_snoc]
      exact hih
    · rw [hqt, lowerL_snoc_semi]
      exact containsSub_mono_right _ hts
    · exact hpar
  · -- the text had a `;`: the first stripped fragment is re-terminated
    obtain ⟨m, d0, hmd⟩ := exists_snoc hwne
    have hd0 : isWs d0 = false := pstrip_last hmd
    have hwnorm : wsNormalize (pstrip w ++ [';']) =
        wsNormalize (pstrip w) ++ [';'] := by
      rw [hmd]
      exact wsNormalize_snoc hd0 (by decide)
    rw [hss, hwnorm] at hdh husel hih hts hqt
    rw [terminate_semi] at hqt
    have hb0sel : startsWithL (str "SELECT") (upperL (wsNormalize (pstrip w))) =
        true := by
      obtain ⟨p, z, hpz, hup, hpne, hpnws, heq⟩ := sel_wsNormalize hselw
      rw [heq]
      exact sel_startsWith_of_front hup
    have hb0ne : wsNormalize (pstrip w) ≠ [] := by
      obtain ⟨p, z, hpz, hup, hpne, hpnws, heq⟩ := sel_wsNormalize hselw
      rw [heq]
      intro hnil
      exact hpne (List.append_eq_nil.1 hnil).1
    have hb0semi : ';' ∉ wsNormalize (pstrip w) := by
      intro hm
      rcases mem_wsNormalize hm with hm1 | hm1
      · exact hwn (mem_pstrip hm1)
      · exact absurd hm1 (by decide)
    have hb0nrm : nrm true (wsNormalize (pstrip w)) = true :=
      nrm_true_wsNormalize (pstrip w)
    obtain ⟨w0, d, hw0d⟩ := exists_snoc hb0ne
    have hnotag : NoTagD (wsNormalize (pstrip w) ++ [';']) := by
      have hwinf : List.IsInfix (pstrip w) s7 :=
        (pstrip_isInfix w).trans ⟨[], ';' :: r, by rw [hsw]; simp⟩
      have h1 : NoTagD (pstrip w ++ [';']) :=
        noTagD_snoc (by decide) (noTagD_within htag hwinf)
      rw [← hwnorm]
      exact noTagD_wsNormalize h1
    refine ⟨⟨w0, d, ?_, ?_, ?_, ?_, ?_⟩, ?_, ?_, ?_, ?_, ?_, ?_⟩
    · rw [hqt, hw0d]
    · exact nrm_last_nonws w0 true hb0nrm hw0d
    · intro hdeq
      exact hb0semi (by rw [hw0d, hdeq]; simp)
    · intro hm
      exact hb0semi (by rw [hw0d]; exact List.mem_append_left _ hm)
    · rw [← hw0d]; exact hb0nrm
    · rw [hqt, upperL_snoc_semi]
      exact startsWithL_mono _ hb0sel
    · rw [hqt]
      exact hnotag
    · rw [hqt]
      exact hdh
    · rw [hqt]
      exact hih
    · rw [hqt]
      exact hts
    · exact hpar

theorem validate_ok_good {fuel : Nat} {raw tbl q : List Char}
    (h : validate_and_clean_sql fuel raw tbl = some (.ok q)) : GoodOut tbl q := by
  simp only [validate_and_clean_sql] at h
  by_cases h1 : pstrip raw = sINVALID
  · rw [if_pos h1] at h; simp at h
  rw [if_neg h1] at h
  by_cases h2 : pstrip raw = sOUTSCOPE
  · rw [if_pos h2] at h; simp at h
  rw [if_neg h2] at h
  cases hrt : removeThinking fuel (deFence (pstrip raw)) with
  | none => rw [hrt] at h; simp at h
  | some s2 =>
    rw [hrt] at h
    simp only [Option.some.injEq] at h
    have hs6tag : NoTagD (pstrip (stripLeadIns (stripTags s2))) :=
      noTagD_within (noTagD_stripTags s2)
        ((pstrip_isInfix _).trans (stripLeadIns_isInfix _))
    by_cases hifsel : startsWithL (str "SELECT")
        (upperL (pstrip (stripLeadIns (stripTags s2)))) = true
    · rw [if_pos hifsel] at h
      exact good_of_stage hs6tag hifsel h
    · rw [if_neg hifsel] at h
      exact good_of_stage (noTagD_prepend (by decide) hs6tag)
        (sel_of_prepended _) h

/-! ## A validated output passes the validator unchanged -/

theorem startsWithL_cons_ne {a c : Char} (p s : List Char) (h : a ≠ c) :
    startsWithL (a :: p) (c :: s) = false := by
  simp [startsWithL, h]

theorem startsWithL_cons_eq (a : Char) (p s : List Char) :
    startsWithL (a :: p) (a :: s) = startsWithL p s := by
  simp [startsWithL]

theorem stripLeadIns_sel {c0 c1 : Char} (p2 : List Char)
    (h0 : loChar c0 = 's') (h1 : loChar c1 = 'e') :
    stripLeadIns (c0 :: c1 :: p2) = c0 :: c1 :: p2 := by
  have hss : lowerL (c0 :: c1 :: p2) = 's' :: 'e' :: lowerL p2 := by
    simp [lowerL, h0, h1]
  have e1 : startsWithL (lowerL (str "Query:")) (lowerL (c0 :: c1 :: p2)) =
      false := by
    rw [hss, show lowerL (str "Query:") = 'q' :: str "uery:" from by decide]
    exact startsWithL_cons_ne _ _ (by decide)
  have e2 : startsWithL (lowerL (str "SQL:")) (lowerL (c0 :: c1 :: p2)) =
      false := by
    rw [hss, show lowerL (str "SQL:") = 's' :: 'q' :: str "l:" from by decide]
    rw [startsWithL_cons_eq]
    exact startsWithL_cons_ne _ _ (by decide)
  have e3 : startsWithL (lowerL (str "Answer:")) (lowerL (c0 :: c1 :: p2)) =
      false := by
    rw [hss, show lowerL (str "Answer:") = 'a' :: str "nswer:" from by decide]
    exact startsWithL_cons_ne _ _ (by decide)
  have e4 : startsWithL (lowerL (str "Result:")) (lowerL (c0 :: c1 :: p2)) =
      false := by
    rw [hss, show lowerL (str "Result:") = 'r' :: str "esult:" from by decide]
    exact startsWithL_cons_ne _ _ (by decide)
  have e5 : startsWithL (lowerL (str "The query is:"))
      (lowerL (c0 :: c1 :: p2)) = false := by
    rw [hss, show lowerL (str "The query is:") = 't' :: str "he query is:" from
      by decide]
    exact startsWithL_cons_ne _ _ (by decide)
  have e6 : startsWithL (lowerL (str "The SQL query is:"))
      (lowerL (c0 :: c1 :: p2)) = false := by
    rw [hss, show lowerL (str "The SQL query is:") =
      't' :: str "he sql query is:" from by decide]
    exact startsWithL_cons_ne _ _ (by decide)
  have e7 : startsWithL (lowerL (str "Here's the query:"))
      (lowerL (c0 :: c1 :: p2)) = false := by
    rw [hss, show lowerL (str "Here's the query:") =
      'h' :: str "ere's the query:" from by decide]
    exact startsWithL_cons_ne _ _ (by decide)
  have e8 : startsWithL (lowerL (str "Here is the query:"))
      (lowerL (c0 :: c1 :: p2)) = false := by
    rw [hss, show lowerL (str "Here is the query:") =
      'h' :: str "ere is the query:" from by decide]
    exact startsWithL_cons_ne _ _ (by decide)
  unfold stripLeadIns leadIns
  simp only [List.foldl_cons, List.foldl_nil]
  rw [if_neg (show ¬ (startsWithL (lowerL (str "Query:"))
    (lowerL (c0 :: c1 :: p2)) = true) from by rw [e1]; exact Bool.false_ne_true)]
  rw [if_neg (show ¬ (startsWithL (lowerL (str "SQL:"))
    (lowerL (c0 :: c1 :: p2)) = true) from by rw [e2]; exact Bool.false_ne_true)]
  rw [if_neg (show ¬ (startsWithL (lowerL (str "Answer:"))
    (lowerL (c0 :: c1 :: p2)) = true) from by rw [e3]; exact Bool.false_ne_true)]
  rw [if_neg (show ¬ (startsWithL (lowerL (str "Result:"))
    (lowerL (c0 :: c1 :: p2)) = true) from by rw [e4]; exact Bool.false_ne_true)]
  rw [if_neg (show ¬ (startsWithL (lowerL (str "The query is:"))
    (lowerL (c0 :: c1 :: p2)) = true) from by rw [e5]; exact Bool.false_ne_true)]
  rw [if_neg (show ¬ (startsWithL (lowerL (str "The SQL query is:"))
    (lowerL (c0 :: c1 :: p2)) = true) from by rw [e6]; exact Bool.false_ne_true)]
  rw [if_neg (show ¬ (startsWithL (lowerL (str "Here's the query:"))
    (lowerL (c0 :: c1 :: p2)) = true) from by rw [e7]; exact Bool.false_ne_true)]
  rw [if_neg (show ¬ (startsWithL (lowerL (str "Here is the query:"))
    (lowerL (c0 :: c1 :: p2)) = true) from by rw [e8]; exact Bool.false_ne_true)]

theorem good_rerun {tbl q : List Char} (hg : GoodOut tbl q) (f2 : Nat) :
    validate_and_clean_sql f2 q tbl = some (.ok q) := by
  obtain ⟨w0, d, hq, hd, hdne, hw0semi, hnrmw⟩ := hg.shape
  obtain ⟨p, rr, hpr, hup, hplen⟩ := sel_decomp hg.sel
  obtain ⟨c0, c1, p2, hpc, hc0, hc1⟩ := sel_two hup
  have hqc : q = c0 :: c1 :: (p2 ++ rr) := by rw [hpr, hpc]; rfl
  have hc0mem : upChar c0 ∈ str "SELECT" := by rw [hc0]; decide
  have hc1mem : upChar c1 ∈ str "SELECT" := by rw [hc1]; decide
  have hc0ws : isWs c0 = false := (sel_char_props hc0mem).1
  have hc0bt : c0 ≠ '`' := (sel_char_props hc0mem).2.2.1
  -- the body before the final `;`, with its head exposed
  have hWW : ∃ t, w0 ++ [d] = c0 :: t := by
    cases hw : w0 ++ [d] with
    | nil => exact absurd hw (by simp)
    | cons e t =>
      refine ⟨t, ?_⟩
      have hhead : e = c0 := by
        have h1 : q = e :: (t ++ [';']) := by rw [hq, hw]; rfl
        rw [hqc] at h1
        exact ((List.cons.injEq ..).mp h1).1.symm
      rw [hhead]
  obtain ⟨t, hWWc⟩ := hWW
  have hqsand : q = c0 :: (t ++ [';']) := by rw [hq, hWWc]; rfl
  have hsemiWW : ';' ∉ w0 ++ [d] := by
    intro hm
    rcases List.mem_append.1 hm with hm1 | hm1
    · exact hw0semi hm1
    · have hd2 : ';' = d := by simpa using hm1
      exact hdne hd2.symm
  -- stage 1: strip is the identity
  have hps : pstrip q = q := by
    rw [hqsand]
    exact pstrip_sandwich t hc0ws (by decide)
  -- stage 2: not a sentinel
  have hsent1 : ¬ (q = sINVALID) := by
    intro heq
    have hlast := congrArg List.getLast? heq
    rw [hq, List.getLast?_concat] at hlast
    rw [show sINVALID.getLast? = some 'T' from by decide] at hlast
    simp at hlast
  have hsent2 : ¬ (q = sOUTSCOPE) := by
    intro heq
    have hlast := congrArg List.getLast? heq
    rw [hq, List.getLast?_concat] at hlast
    rw [show sOUTSCOPE.getLast? = some 'E' from by decide] at hlast
    simp at hlast
  -- stage 3: no code fences
  have hf1 : startsWithL (str "```sql") q = false := by
    rw [hqc, show str "```sql" = '`' :: str "``sql" from rfl]
    exact startsWithL_cons_ne _ _ (fun hgeq => hc0bt hgeq.symm)
  have hf2 : startsWithL (str "```") q = false := by
    rw [hqc, show str "```" = '`' :: str "``" from rfl]
    exact startsWithL_cons_ne _ _ (fun hgeq => hc0bt hgeq.symm)
  have hf3 : endsWithL (str "```") q = false := by
    cases hend : endsWithL (str "```") q with
    | false => rfl
    | true =>
      exfalso
      obtain ⟨a, ha⟩ := endsWithL_iff.1 hend
      have ha2 : (w0 ++ [d]) ++ [';'] = (a ++ str "``") ++ ['`'] := by
        rw [← hq, ha]
        simp [str]
      exact absurd (snoc_inj ha2).2 (by decide)
  have hdf : deFence q = q := by
    simp [deFence, hf1, hf2, hf3]
  -- stage 4: no thinking opener
  have hrt : removeThinking f2 q = some q := by
    rw [removeThinking]
    rw [firstOcc_eq_none (containsSub_thinkOpen_eq_false hg.notag)]
  -- stage 5: tags and lead-ins are no-ops
  have hst : stripTags q = q := stripTags_eq_self hg.notag
  have hsl : stripLeadIns q = q := by
    rw [hqc]
    exact stripLeadIns_sel _ (loChar_eq_of_upChar_S hc0) (loChar_eq_of_upChar_E hc1)
  -- stage 6: statement splitting and normalization reproduce q
  have hpsWW : pstrip (w0 ++ [d]) = w0 ++ [d] := by
    cases w0 with
    | nil => exact pstrip_single hd
    | cons e w0' =>
      have he : e = c0 := by
        have hcc := hWWc
        simp only [List.cons_append, List.cons.injEq] at hcc
        exact hcc.1
      rw [List.cons_append, he]
      exact pstrip_sandwich w0' hc0ws hd
  have hssq : semiSplit q = q := by
    have hq2 : q = (w0 ++ [d]) ++ ';' :: [] := by rw [hq]
    rw [hq2, semiSplit_first [] hsemiWW (by rw [hpsWW]; simp), hpsWW]
  have hnrmq : nrm true q = true := by
    rw [hq]
    exact nrm_snoc (by decide) true hnrmw
  have hwsq : wsNormalize q = q := wsNormalize_eq_self hnrmq
  -- stage 7: all final checks pass and return q itself
  have hfc : finalChecks tbl q = .ok q := by
    unfold finalChecks
    rw [hg.kwOk]
    rw [if_pos hg.sel]
    rw [hg.injOk]
    rw [if_pos hg.tblOk]
    have hterm : terminate q = q := by
      rw [hq]
      exact terminate_semi (w0 ++ [d])
    rw [hterm, if_pos hg.paren]
  -- assemble the pipeline
  simp only [validate_and_clean_sql]
  rw [hps, if_neg hsent1, if_neg hsent2, hdf, hrt]
  show some (finalChecks tbl (wsNormalize (semiSplit
    (if startsWithL (str "SELECT") (upperL (pstrip (stripLeadIns (stripTags q)))) =
        true then
      pstrip (stripLeadIns (stripTags q))
    else str "SELECT " ++ pstrip (stripLeadIns (stripTags q)))))) =
      some (Except.ok q)
  rw [hst, hsl, hps, if_pos hg.sel, hssq, hwsq, hfc]

theorem containsSub_nil_pat (x : List Char) : containsSub [] x = true := by
  cases x <;> simp [containsSub, startsWithL]

theorem wsnGo_allWs {w : List Char} (hw : ∀ c ∈ w, isWs c = true) :
    ∀ b, wsnGo b w = [] := by
  induction w with
  | nil => intro b; rfl
  | cons c w' ih =>
    intro b
    rw [wsnGo_cons_ws _ _ (hw c (by simp))]
    exact ih (fun d hd => hw d (by simp [hd])) true

theorem wsnGo_append_allWs {w : List Char} (hw : ∀ c ∈ w, isWs c = true) :
    ∀ (x : List Char) (b : Bool), wsnGo b (x ++ w) = wsnGo b x := by
  intro x
  induction x with
  | nil =>
    intro b
    rw [List.nil_append, wsnGo_allWs hw b, wsnGo_nil]
  | cons c x' ih =>
    intro b
    by_cases hc : isWs c
    · rw [List.cons_append, wsnGo_cons_ws _ _ hc, wsnGo_cons_ws _ _ hc]
      exact ih true
    · cases b with
      | false =>
        rw [List.cons_append, wsnGo_cons_false _ (by simpa using hc),
          wsnGo_cons_false _ (by simpa using hc), ih false]
      | true =>
        rw [List.cons_append, wsnGo_cons_true _ (by simpa using hc),
          wsnGo_cons_true _ (by simpa using hc), ih false]

theorem dropWhile_allWs_nil {x : List Char} (hx : ∀ c ∈ x, isWs c = true) :
    x.dropWhile isWs = [] := by
  induction x with
  | nil => rfl
  | cons c x' ih =>
    rw [List.dropWhile_cons, if_pos (by simpa using hx c (by simp))]
    exact ih (fun d hd => hx d (by simp [hd]))

theorem wsNormalize_pstrip (x : List Char) :
    wsNormalize (pstrip x) = wsNormalize x := by
  cases hp : pstrip x with
  | nil =>
    have hall : ∀ c ∈ x, isWs c = true := pstrip_eq_nil_allWs hp
    unfold wsNormalize
    rw [dropWhile_allWs_nil hall]
    rfl
  | cons c m =>
    have hc : isWs c = false := pstrip_head hp
    have hy : x.dropWhile isWs = pstrip x ++
        ((x.dropWhile isWs).reverse.takeWhile isWs).reverse :=
      dropWhile_rev_decomp (x.dropWhile isWs)
    have htail : ∀ d ∈ ((x.dropWhile isWs).reverse.takeWhile isWs).reverse,
        isWs d = true :=
      fun d hd => List.mem_takeWhile_imp (List.mem_reverse.1 hd)
    unfold wsNormalize
    rw [hy, hp]
    rw [dropWhile_cons_false _ hc]
    exact (wsnGo_append_allWs htail (c :: m) false).symm

theorem dropSemiEnd_concat (b : List Char) :
    dropSemiEnd (b ++ [';']) = b := by
  unfold dropSemiEnd
  rw [if_pos (endsWith_semi_concat b)]
  have hlen : (b ++ [';']).length - 1 = b.length := by simp
  rw [hlen]
  exact List.take_left b [';']

theorem dropSemiEnd_no_semi {s : List Char} (h : ';' ∉ s) :
    dropSemiEnd s = s := by
  unfold dropSemiEnd
  rw [endsWith_semi_false h]
  simp

theorem split_first_unique {c : Char} :
    ∀ {a1 b1 a2 b2 : List Char}, a1 ++ c :: b1 = a2 ++ c :: b2 → c ∉ a1 →
      c ∉ a2 → a1 = a2 ∧ b1 = b2 := by
  intro a1
  induction a1 with
  | nil =>
    intro b1 a2 b2 h h1 h2
    cases a2 with
    | nil =>
      have hb : b1 = b2 := by simpa using h
      exact ⟨rfl, hb⟩
    | cons a0 a2' =>
      exfalso
      have hinj := (List.cons.injEq ..).mp (by simpa using h)
      exact h2 (by rw [← hinj.1]; simp)
  | cons a0 a1' ih =>
    intro b1 a2 b2 h h1 h2
    cases a2 with
    | nil =>
      exfalso
      have hinj := (List.cons.injEq ..).mp (by simpa using h)
      exact h1 (by rw [hinj.1]; simp)
    | cons b0 a2' =>
      have hinj := (List.cons.injEq ..).mp (by simpa using h)
      have hrec := ih hinj.2 (fun hm => h1 (List.mem_cons_of_mem _ hm))
        (fun hm => h2 (List.mem_cons_of_mem _ hm))
      exact ⟨by rw [hinj.1, hrec.1], hrec.2⟩

theorem sel_pipeline {s7 : List Char}
    (h : startsWithL (str "SELECT") (upperL s7) = true) :
    startsWithL (str "SELECT") (upperL (wsNormalize (semiSplit s7))) = true := by
  rcases sel_semiSplit_cases h with ⟨_, hss⟩ | ⟨w, r, _, _, hss, hselw, hwne⟩
  · rw [hss]
    obtain ⟨p, z, _, hup, _, _, heq⟩ := sel_wsNormalize h
    rw [heq]
    exact sel_startsWith_of_front hup
  · rw [hss]
    obtain ⟨m, d0, hmd⟩ := exists_snoc hwne
    rw [hmd, wsNormalize_snoc (pstrip_last hmd) (by decide), ← hmd]
    obtain ⟨p, z, _, hup, _, _, heq⟩ := sel_wsNormalize hselw
    rw [heq, List.append_assoc]
    exact sel_startsWith_of_front hup

theorem finalChecks_ne_onlySelect {tbl u : List Char}
    (hsel : startsWithL (str "SELECT") (upperL u) = true) :
    finalChecks tbl u ≠ .error .onlySelect := by
  unfold finalChecks
  cases hdh : dangerousHit (upperL u) with
  | some kw => simp
  | none =>
    rw [if_pos hsel]
    cases injectionHit (lowerL u) with
    | some pat => simp
    | none =>
      by_cases hts : containsSub (lowerL tbl) (lowerL u) = true
      · rw [if_pos hts]
        by_cases hpar : (terminate u).count '(' = (terminate u).count ')'
        · rw [if_pos hpar]; simp
        · rw [if_neg hpar]; simp
      · rw [if_neg hts]; simp

theorem removeThinking_loopInput (f : Nat) : removeThinking f loopInput = none := by
  induction f with
  | zero => decide
  | succ n ih =>
    have h : removeThinking (n + 1) loopInput = removeThinking n loopInput := rfl
    rw [h]; exact ih

/-- C5: claimed: the repeated removal of thinking regions reaches, in finitely
many iterations, a state with no opener left, on every input.  In fact on
`loopInput` ( `</thinking>x<thinking>y` ) each iteration of the while loop
returns the string unchanged, so no iteration budget ever completes the
loop: the code loops forever. -/
theorem C5_thinking_loop_diverges (fuel : Nat) (tbl : List Char) :
    validate_and_clean_sql fuel loopInput tbl = none := by
  have hpre : deFence (pstrip loopInput) = loopInput := by decide
  simp only [validate_and_clean_sql]
  rw [if_neg (by decide), if_neg (by decide), hpre, removeThinking_loopInput]

/-- C2: the multi-statement smuggling input validates to exactly the first
statement, and the returned string contains no occurrence of `DROP`, in any
casing. -/
theorem C2_multi_statement_discarded :
    validate_and_clean_sql 1 (str "SELECT * FROM t; DROP TABLE t;") (str "t") =
        some (.ok (str "SELECT * FROM t;")) ∧
      containsSub (str "DROP") (upperL (str "SELECT * FROM t;")) = false ∧
      containsSub (str "DROP") (str "SELECT * FROM t;") = false := by
  refine ⟨by decide, by decide, by decide⟩

/-- C3: any input whose stripped form is exactly one of the two sentinels
fails with the corresponding error, for every iteration budget (in
particular budget 0: no de-fencing, thinking-removal or any later stage is
needed to produce the failure). -/
theorem C3_sentinels_fail_first :
    (∀ fuel raw tbl, pstrip raw = sINVALID →
        validate_and_clean_sql fuel raw tbl = some (.error .invalidRequest)) ∧
      (∀ fuel raw tbl, pstrip raw = sOUTSCOPE →
        validate_and_clean_sql fuel raw tbl = some (.error .outOfScope)) := by
  constructor
  · intro fuel raw tbl h
    simp only [validate_and_clean_sql]
    rw [h, if_pos rfl]
  · intro fuel raw tbl h
    simp only [validate_and_clean_sql]
    rw [h, if_neg (by decide), if_pos rfl]

theorem C3_sentinels_fail_first_witness :
    validate_and_clean_sql 0 (str "  INVALID_REQUEST" ++ [Char.ofNat 9]) (str "t") =
        some (.error .invalidRequest) ∧
      validate_and_clean_sql 0 (str " OUT_OF_SCOPE ") (str "t") =
        some (.error .outOfScope) :=
  ⟨C3_sentinels_fail_first.1 0 (str "  INVALID_REQUEST" ++ [Char.ofNat 9]) (str "t")
      (by decide),
    C3_sentinels_fail_first.2 0 (str " OUT_OF_SCOPE ") (str "t") (by decide)⟩

/-- C6 counterexample: the claim says a statement containing the string
literal `'create new record'` must NOT be rejected; the code rejects it,
because `\b`-bounded matching sees the quote as a word boundary and the
keyword scan is not aware of string literals. -/
theorem C6_string_literal_rejected :
    validate_and_clean_sql 1 (str "SELECT * FROM t WHERE note = 'create new record'")
        (str "t") =
      some (.error (.dangerousOp (str "CREATE"))) := by decide

/-- C6 amended: keyword rejection is word-bounded, not substring-based: the
column alias `created_at` is not rejected and `CREATE TABLE x` is rejected
reporting `CREATE`; but word-boundary matching does not see string literals,
so `'create new record'` is also rejected reporting `CREATE`. -/
theorem C6_word_bounded_keyword_scan :
    validate_and_clean_sql 1 (str "SELECT created_at FROM t") (str "t") =
        some (.ok (str "SELECT created_at FROM t;")) ∧
      validate_and_clean_sql 1 (str "SELECT * FROM t CREATE TABLE x") (str "t") =
        some (.error (.dangerousOp (str "CREATE"))) ∧
      validate_and_clean_sql 1
          (str "SELECT * FROM t WHERE memo = 'create new record'") (str "t") =
        some (.error (.dangerousOp (str "CREATE"))) := by
  refine ⟨by decide, by decide, by decide⟩

/-- C1: every string the validator returns successfully begins with `SELECT`
case-insensitively, contains none of the thirteen blocked keywords as a
word-bounded token (even case-insensitively), contains the table name as a
case-insensitive substring, has equally many `(` and `)`, and contains
exactly one `;`, which is its final character. -/
theorem C1_validated_query_shape {fuel : Nat} {raw tbl q : List Char}
    (h : validate_and_clean_sql fuel raw tbl = some (.ok q)) :
    startsWithL (str "SELECT") (upperL q) = true ∧
      (∀ kw ∈ dangerousKeywords, wordBounded kw (upperL q) = false) ∧
      containsSub (lowerL tbl) (lowerL q) = true ∧
      q.count '(' = q.count ')' ∧
      q.count ';' = 1 ∧ q.getLast? = some ';' := by
  have hg := validate_ok_good h
  obtain ⟨w0, d, hq, hd, hdne, hw0, _⟩ := hg.shape
  refine ⟨hg.sel, ?_, hg.tblOk, hg.paren, ?_, ?_⟩
  · intro kw hkw
    have hfind := List.find?_eq_none.1 hg.kwOk kw hkw
    simpa using hfind
  · rw [hq, List.count_append, List.count_append]
    rw [List.count_eq_zero.2 hw0]
    rw [List.count_eq_zero.2 (show ';' ∉ [d] by simpa using fun hc => hdne hc.symm)]
    rfl
  · rw [hq, List.getLast?_concat]

theorem C1_validated_query_shape_witness :
    startsWithL (str "SELECT") (upperL (str "SELECT * FROM t;")) = true ∧
      (∀ kw ∈ dangerousKeywords,
        wordBounded kw (upperL (str "SELECT * FROM t;")) = false) ∧
      containsSub (lowerL (str "t")) (lowerL (str "SELECT * FROM t;")) = true ∧
      (str "SELECT * FROM t;").count '(' = (str "SELECT * FROM t;").count ')' ∧
      (str "SELECT * FROM t;").count ';' = 1 ∧
      (str "SELECT * FROM t;").getLast? = some ';' :=
  C1_validated_query_shape
    (show validate_and_clean_sql 1 (str "SELECT *  FROM t") (str "t") =
      some (.ok (str "SELECT * FROM t;")) by decide)

/-- C7: the validator is idempotent on success: re-validating a returned
query with the same table name succeeds (with any iteration budget) and
returns the identical string. -/
theorem C7_validate_idempotent {fuel : Nat} {raw tbl q : List Char}
    (h : validate_and_clean_sql fuel raw tbl = some (.ok q)) :
    ∀ fuel2, validate_and_clean_sql fuel2 q tbl = some (.ok q) :=
  good_rerun (validate_ok_good h)

theorem C7_validate_idempotent_witness :
    validate_and_clean_sql 1 (str "SELECT * FROM t;") (str "t") =
      some (.ok (str "SELECT * FROM t;")) :=
  C7_validate_idempotent
    (show validate_and_clean_sql 1 (str "```sql SELECT  *  FROM t```") (str "t") =
      some (.ok (str "SELECT * FROM t;")) by decide) 1

/-- C10: the `Only SELECT queries are allowed` entry-point failure is
unreachable: because `SELECT ` is prepended whenever the cleaned text does
not already start with it, no input ever produces that error. -/
theorem C10_entry_check_unreachable (fuel : Nat) (raw tbl : List Char) :
    validate_and_clean_sql fuel raw tbl ≠ some (.error .onlySelect) := by
  intro h
  simp only [validate_and_clean_sql] at h
  by_cases h1 : pstrip raw = sINVALID
  · rw [if_pos h1] at h; simp at h
  rw [if_neg h1] at h
  by_cases h2 : pstrip raw = sOUTSCOPE
  · rw [if_pos h2] at h; simp at h
  rw [if_neg h2] at h
  cases hrt : removeThinking fuel (deFence (pstrip raw)) with
  | none => rw [hrt] at h; simp at h
  | some s2 =>
    rw [hrt] at h
    simp only [Option.some.injEq] at h
    by_cases hifsel : startsWithL (str "SELECT")
        (upperL (pstrip (stripLeadIns (stripTags s2)))) = true
    · rw [if_pos hifsel] at h
      exact finalChecks_ne_onlySelect (sel_pipeline hifsel) h
    · rw [if_neg hifsel] at h
      exact finalChecks_ne_onlySelect (sel_pipeline (sel_of_prepended _)) h

/-- C4 counterexample: the claim says a syntactically valid single SELECT
statement with no blocked keyword that references the table is returned
unchanged except for whitespace normalization and a trailing `;`.  The tag
stripping stage `re.sub(r"<[^>]+>", "", ...)` deletes the characters between
a comparison `<` and a later `>`, so `SELECT * FROM t WHERE a < b AND c > d`
comes back as `SELECT * FROM t WHERE a d;` with non-whitespace characters
removed. -/
theorem C4_tag_stripping_counterexample :
    validate_and_clean_sql 1 (str "SELECT * FROM t WHERE a < b AND c > d")
        (str "t") = some (.ok (str "SELECT * FROM t WHERE a d;")) ∧
      str "SELECT * FROM t WHERE a d;" ≠
        wsNormalize (dropSemiEnd (str "SELECT * FROM t WHERE a < b AND c > d")) ++
          [';'] := by
  refine ⟨by decide, by decide⟩

/-- C4 (amended): for a stripped single SELECT statement that additionally
contains no `<` (so the tag/thinking stripping stages cannot fire), no
backtick (no code-fence), does not begin with a boilerplate lead-in, has no
`;` except possibly a final one, and whose normalized form passes the
keyword, injection-pattern, table-reference and parenthesis checks, the
validator succeeds and returns exactly the statement with whitespace runs
collapsed and a (possibly restored) trailing `;` — no other character is
removed or altered. -/
theorem C4_whitespace_only_change {s tbl : List Char} (fuel : Nat)
    (hstrip : pstrip s = s)
    (hsel : startsWithL (str "SELECT") (upperL s) = true)
    (hlt : '<' ∉ s)
    (hbt : '`' ∉ s)
    (hlead : stripLeadIns s = s)
    (hsemi : ';' ∉ dropSemiEnd s)
    (htblsemi : ';' ∉ lowerL tbl)
    (hkw : dangerousHit (upperL (wsNormalize (dropSemiEnd s) ++ [';'])) = none)
    (hinj : injectionHit (lowerL (wsNormalize (dropSemiEnd s) ++ [';'])) = none)
    (htbl : containsSub (lowerL tbl)
      (lowerL (wsNormalize (dropSemiEnd s) ++ [';'])) = true)
    (hpar : (wsNormalize (dropSemiEnd s) ++ [';']).count '(' =
      (wsNormalize (dropSemiEnd s) ++ [';']).count ')') :
    validate_and_clean_sql fuel s tbl =
      some (.ok (wsNormalize (dropSemiEnd s) ++ [';'])) := by
  have hnt : NoTagD s := fun a b hab =>
    absurd (show '<' ∈ s by rw [hab]; simp) hlt
  have hsent1 : ¬ (s = sINVALID) := by
    intro heq; rw [heq] at hsel; revert hsel; decide
  have hsent2 : ¬ (s = sOUTSCOPE) := by
    intro heq; rw [heq] at hsel; revert hsel; decide
  have hb1 : startsWithL (str "```sql") s = false := by
    cases hx : startsWithL (str "```sql") s with
    | false => rfl
    | true => exact absurd (mem_of_startsWithL hx (by decide)) hbt
  have hb2 : startsWithL (str "```") s = false := by
    cases hx : startsWithL (str "```") s with
    | false => rfl
    | true => exact absurd (mem_of_startsWithL hx (by decide)) hbt
  have hb3 : endsWithL (str "```") s = false := by
    cases hx : endsWithL (str "```") s with
    | false => rfl
    | true => exact absurd (mem_of_endsWithL hx (by decide)) hbt
  have hdf : deFence s = s := by simp [deFence, hb1, hb2, hb3]
  have hrt : removeThinking fuel s = some s := by
    rw [removeThinking,
      firstOcc_eq_none (containsSub_thinkOpen_eq_false hnt)]
  have hst : stripTags s = s := stripTags_eq_self hnt
  simp only [validate_and_clean_sql]
  rw [hstrip, if_neg hsent1, if_neg hsent2, hdf, hrt]
  show some (finalChecks tbl (wsNormalize (semiSplit
    (if startsWithL (str "SELECT") (upperL (pstrip (stripLeadIns (stripTags s)))) =
        true then pstrip (stripLeadIns (stripTags s))
      else str "SELECT " ++ pstrip (stripLeadIns (stripTags s)))))) =
    some (Except.ok (wsNormalize (dropSemiEnd s) ++ [';']))
  rw [hst, hlead, hstrip, if_pos hsel]
  by_cases hms : ';' ∈ s
  · have hE : endsWithL (str ";") s = true := by
      cases hx : endsWithL (str ";") s with
      | true => rfl
      | false =>
        exfalso
        have hds : dropSemiEnd s = s := by unfold dropSemiEnd; rw [hx]; simp
        rw [hds] at hsemi
        exact hsemi hms
    obtain ⟨b, hb⟩ := endsWithL_iff.1 hE
    have hsb : s = b ++ ';' :: [] := by rw [hb]; rfl
    have hbsemi : ';' ∉ b := by
      have hrw := hsemi
      rw [hsb, dropSemiEnd_concat] at hrw
      exact hrw
    rcases sel_semiSplit_cases hsel with ⟨hns, _⟩ | ⟨w, r, hsw, hwn, hss, hselw, hwne⟩
    · exact absurd hms hns
    obtain ⟨hwb, hrnil⟩ := split_first_unique (by rw [← hsw, hsb]) hwn hbsemi
    subst hwb
    rw [hss]
    obtain ⟨m, d0, hmd⟩ := exists_snoc hwne
    rw [hmd, wsNormalize_snoc (pstrip_last hmd) (by decide), ← hmd,
      wsNormalize_pstrip]
    have hdse : dropSemiEnd s = w := by rw [hsb]; exact dropSemiEnd_concat w
    rw [hdse] at hkw hinj htbl hpar ⊢
    have husel : startsWithL (str "SELECT") (upperL (wsNormalize w ++ [';'])) =
        true := by
      rw [upperL_snoc_semi]
      apply startsWithL_mono
      rw [← wsNormalize_pstrip]
      obtain ⟨p, z, _, hup, _, _, heq⟩ := sel_wsNormalize hselw
      rw [heq]
      exact sel_startsWith_of_front hup
    have hfc : finalChecks tbl (wsNormalize w ++ [';']) =
        .ok (wsNormalize w ++ [';']) := by
      unfold finalChecks
      rw [hkw, if_pos husel, hinj, if_pos htbl, terminate_semi, if_pos hpar]
    rw [hfc]
  · have hds : dropSemiEnd s = s := dropSemiEnd_no_semi hms
    rw [semiSplit_no_semi hms]
    rw [hds] at hkw hinj htbl hpar ⊢
    have husemi : ';' ∉ wsNormalize s := by
      intro hm
      rcases mem_wsNormalize hm with hm1 | hm1
      · exact hms hm1
      · exact absurd hm1 (by decide)
    have husel : startsWithL (str "SELECT") (upperL (wsNormalize s)) = true := by
      obtain ⟨p, z, _, hup, _, _, heq⟩ := sel_wsNormalize hsel
      rw [heq]
      exact sel_startsWith_of_front hup
    have hkw2 : dangerousHit (upperL (wsNormalize s)) = none := by
      rw [← dangerousHit_snoc]; exact hkw
    have hinj2 : injectionHit (lowerL (wsNormalize s)) = none := by
      rw [← injectionHit_snoc]; exact hinj
    have htbl2 : containsSub (lowerL tbl) (lowerL (wsNormalize s)) = true := by
      cases htn : lowerL tbl with
      | nil => exact containsSub_nil_pat _
      | cons t0 ts =>
        rw [← htn]
        have hrw := htbl
        rw [lowerL_snoc_semi,
          containsSub_snoc (by rw [htn]; simp) htblsemi] at hrw
        exact hrw
    have hfc : finalChecks tbl (wsNormalize s) = .ok (wsNormalize s ++ [';']) := by
      unfold finalChecks
      rw [hkw2, if_pos husel, hinj2, if_pos htbl2, terminate_no_semi husemi,
        if_pos hpar]
    rw [hfc]

theorem C4_whitespace_only_change_witness :
    validate_and_clean_sql 1 (str "SELECT  a ,  b  FROM t WHERE x = 1")
        (str "t") =
      some (.ok (wsNormalize (dropSemiEnd
        (str "SELECT  a ,  b  FROM t WHERE x = 1")) ++ [';'])) :=
  C4_whitespace_only_change 1 (by decide) (by decide) (by decide) (by decide)
    (by decide) (by decide) (by decide) (by decide) (by decide) (by decide)
    (by decide)

/-- C8 counterexample: the claim says absent credentials make `generate_sql`
fail fast with the not-configured error and no network call.  But
`api_configured = api_key != "placeholder_key"` is `True` when the key is
absent (`None`), so with no key the gate passes, the RAG context and prompts
are built, and exactly one network call is attempted — here one that
succeeds end to end instead of returning the not-configured error. -/
theorem C8_absent_key_counterexample :
    api_configured_of none = true ∧
      generate_sql 1 none (fun _ _ => str "SELECT * FROM t")
        (str "how many rows") ⟨str "t", [], [], 0⟩ =
        (.ok (str "SELECT * FROM t;"), 1) := by
  refine ⟨rfl, by decide⟩

/-- C8 (amended): the configured gate fires exactly when the key equals the
literal `placeholder_key`; whenever it fires, `generate_sql` returns the
distinct not-configured error with zero network calls, independent of the
question, the table context, and the model — so no RAG context, prompt or
API call can have been used. -/
theorem C8_not_configured_fails_fast {apiKey : Option (List Char)}
    (fuel : Nat) (oracle : List Char → List Char → List Char)
    (question : List Char) (t : TableCtx)
    (h : api_configured_of apiKey = false) :
    generate_sql fuel apiKey oracle question t = (.error .notConfigured, 0) := by
  unfold generate_sql
  rw [h]
  simp

theorem C8_not_configured_fails_fast_witness :
    generate_sql 1 (some (str "placeholder_key"))
      (fun _ _ => str "SELECT * FROM t") (str "how many rows")
      ⟨str "t", [], [], 0⟩ = (.error .notConfigured, 0) :=
  C8_not_configured_fails_fast 1 (fun _ _ => str "SELECT * FROM t")
    (str "how many rows") ⟨str "t", [], [], 0⟩ (by decide)

/-- C9: the context builder is total on typed table contexts — in
particular when the sample-row list is empty — and always returns a
non-empty string that contains the table name and the decimal row count. -/
theorem C9_rag_context_total_nonempty (t : TableCtx) :
    build_rag_context t ≠ [] ∧
      containsSub t.table_name (build_rag_context t) = true ∧
      containsSub (natStr t.row_count) (build_rag_context t) = true := by
  have h0 : containsSub (str "Table: ") (build_rag_context t) = true := by
    refine containsSub_iff.2 ⟨[], t.table_name ++ (str "\nTotal rows: " ++
      (natStr t.row_count ++ (str "\n\nColumns:\n" ++
        (catAll (t.columns.map colLine) ++
          (rowsSection t.columns t.sample_data ++
            stringValuesSection t.columns t.sample_data))))), ?_⟩
    simp only [build_rag_context, List.append_assoc, List.nil_append]
  have h1 : containsSub t.table_name (build_rag_context t) = true := by
    refine containsSub_iff.2 ⟨str "Table: ", str "\nTotal rows: " ++
      (natStr t.row_count ++ (str "\n\nColumns:\n" ++
        (catAll (t.columns.map colLine) ++
          (rowsSection t.columns t.sample_data ++
            stringValuesSection t.columns t.sample_data)))), ?_⟩
    simp only [build_rag_context, List.append_assoc]
  have h2 : containsSub (natStr t.row_count) (build_rag_context t) = true := by
    refine containsSub_iff.2 ⟨str "Table: " ++ t.table_name ++
      str "\nTotal rows: ", str "\n\nColumns:\n" ++
        (catAll (t.columns.map colLine) ++
          (rowsSection t.columns t.sample_data ++
            stringValuesSection t.columns t.sample_data)), ?_⟩
    simp only [build_rag_context, List.append_assoc]
  refine ⟨?_, h1, h2⟩
  intro hnil
  have hm : 'T' ∈ build_rag_context t :=
    mem_of_containsSub h0 (by decide)
  rw [hnil] at hm
  exact (List.not_mem_nil _) hm

end NLToSQL
